import Mathlib

/-!
Verification development for the closed-unitigs post-processor
(sources: src/utils.rs, src/unitig.rs, src/graph.rs, src/main.rs).

Shallow embedding conventions:
* a Rust String of nucleotides is modelled as a list of characters (Dna);
* Rust functions that can panic (failed assert, unwrap of a missing key,
  out-of-range index, usize underflow under checked arithmetic) are modelled
  as Option-valued functions returning none on the panic path;
* HashMap with Unitig keys is modelled as an association list whose lookup
  and insert compare keys by normal form, exactly as the PartialEq and Hash
  implementations of Unitig do (both hash and compare the normal form);
* the unbounded closure loop of Graph::closure is modelled with an explicit
  fuel parameter: the result distinguishes a Rust panic (PRes.panic), fuel
  exhaustion (PRes.more) and normal termination (PRes.ok).  Any terminating
  run of the Rust loop is reproduced by every sufficiently large fuel.
-/

/-- Dna is the model of a Rust String holding a nucleotide sequence. -/
abbrev Dna := List Char

/-- Rust slice u[i..j] of a string, as a list operation. -/
def substr (u : Dna) (i j : Nat) : Dna := (u.drop i).take (j - i)

/-- Model of utils::complement: complement of one nucleotide, none on an
invalid character (source: src/utils.rs, fn complement). -/
def utils.complement (nucleo : Char) : Option Char :=
  match nucleo with
  | 'A' => some 'T'
  | 'C' => some 'G'
  | 'G' => some 'C'
  | 'T' => some 'A'
  | _ => none

/-- Collect of an iterator of Options into an Option of the collection,
as used by rev_compl (Rust FromIterator for Option). -/
def collectO : List (Option α) → Option (List α)
  | [] => some []
  | none :: _ => none
  | some a :: rest => (collectO rest).map (a :: ·)

/-- Model of utils::rev_compl: complement every character, reverse, collect;
none when some character is not a nucleotide (source: src/utils.rs,
fn rev_compl).  The Rust code reverses the iterator before collecting, which
yields the reverse of the complemented sequence. -/
def utils.rev_compl (seq : Dna) : Option Dna :=
  (collectO (seq.map utils.complement)).map List.reverse

/-- Byte-lexicographic strict order on character lists, modelling the Ord
instance of Rust String restricted to the ASCII strings used here. -/
def lexLt : Dna → Dna → Bool
  | [], [] => false
  | [], _ :: _ => true
  | _ :: _, [] => false
  | a :: as, b :: bs => a < b || (a = b && lexLt as bs)

/-- Model of utils::norm: the smaller of the sequence and its reverse
complement; none when the input is invalid, because Option ordering in Rust
puts None below Some so the min is None (source: src/utils.rs, fn norm).
Rust cmp::min returns the first argument on ties. -/
def utils.norm (seq : Dna) : Option Dna :=
  match utils.rev_compl seq with
  | none => none
  | some r => some (if lexLt r seq then r else seq)

/-- Valid nucleotide test (the four upper-case letters accepted by the
TryFrom validation in src/unitig.rs). -/
def validNuc (c : Char) : Bool :=
  c = 'A' || c = 'C' || c = 'G' || c = 'T'

/-- Validity of a whole sequence. -/
def uValid (s : Dna) : Bool := s.all validNuc

/-- Total companion of utils.complement used in specifications and proofs:
on the four nucleotides it is the complement, elsewhere the identity. -/
def complT (c : Char) : Char :=
  match c with
  | 'A' => 'T'
  | 'C' => 'G'
  | 'G' => 'C'
  | 'T' => 'A'
  | c => c

/-- Total reverse complement (specification-side companion of
utils.rev_compl, agreeing with it on valid sequences). -/
def rcT (s : Dna) : Dna := (s.map complT).reverse

/-- Model of the case normalization to_uppercase performed by the TryFrom
conversion; the sequences of this program are ASCII. -/
def toUpperSeq (s : Dna) : Dna := s.map Char.toUpper

/-- Model of impl TryFrom String for Unitig: upper-case, then validate every
character, failing with the first non-nucleotide (source: src/unitig.rs,
WrongNucleotide is the error the spec calls InvalidNucleotide). -/
def Unitig.try_from (s : Dna) : Except Char Dna :=
  let u := toUpperSeq s
  match u.find? (fun c => !validNuc c) with
  | some c => .error c
  | none => .ok u

/-- Conversion used where Rust writes try_into().unwrap(): panic is none. -/
def asUnitig (s : Dna) : Option Dna := (Unitig.try_from s).toOption

/-- Prefix test on lists (helper for the substring test). -/
def startsWith : Dna → Dna → Bool
  | _, [] => true
  | [], _ :: _ => false
  | a :: as, b :: bs => a = b && startsWith as bs

/-- Model of Unitig::contains: literal (non-canonical) substring test, the
semantics of Rust str::contains on ASCII (source: src/unitig.rs,
fn contains). -/
def Unitig.contains (m x : Dna) : Bool :=
  match m with
  | [] => startsWith [] x
  | _ :: rest => startsWith m x || Unitig.contains rest x

/-- Model of impl Add for Unitig: concatenation requiring an overlap of
length min len minus one; the failed assert and the usize underflow on empty
operands are the none cases (source: src/unitig.rs, fn add). -/
def Unitig.add (a b : Dna) : Option Dna :=
  if min a.length b.length = 0 then none
  else
    let common := min a.length b.length - 1
    if a.drop (a.length - common) = b.take common
    then some (a ++ b.drop common)
    else none

/-- Model of PartialEq for Unitig: equality of normal forms; the unwrap of
norm makes invalid operands a panic, hence Option (source: src/unitig.rs). -/
def Unitig.eqU (a b : Dna) : Option Bool :=
  match utils.norm a, utils.norm b with
  | some x, some y => some (decide (x = y))
  | _, _ => none

/-- Stand-in for the hash of a sequence of bytes.  The Hash implementation
feeds the bytes of the normal form to the hasher, so the hash value is a
function of the normal form; any injective-agnostic deterministic function
models it. -/
def seqHash (s : Dna) : Nat := s.foldl (fun h c => h * 256 + c.toNat) 0

/-- Model of Hash for Unitig: hash of the normal form (source:
src/unitig.rs, impl Hash). -/
def Unitig.hashN (u : Dna) : Option Nat := (utils.norm u).map seqHash

-- ---------------------------------------------------------------------
-- Canonical-key maps (definitions): the model of HashMap with Unitig keys.
-- Lookup and insertion compare keys the way the Unitig PartialEq and Hash
-- implementations do: by normal form.  Rust HashMap::insert keeps the
-- original key and replaces the value.
-- ---------------------------------------------------------------------

/-- Key equivalence used by the HashMap model: equality of normal forms. -/
def keyEq (a b : Dna) : Bool := decide (utils.norm a = utils.norm b)

/-- Association list standing for HashMap with Unitig keys. -/
abbrev UMap (β : Type) : Type := List (Dna × β)

/-- Lookup by canonical key equality. -/
def lookupU : UMap β → Dna → Option β
  | [], _ => none
  | p :: rest, u => if keyEq p.1 u then some p.2 else lookupU rest u

/-- Insert by canonical key equality: replaces the value of an existing
entry (keeping the stored key, as Rust HashMap::insert does), else appends. -/
def insertU : UMap β → Dna → β → UMap β
  | [], u, v => [(u, v)]
  | p :: rest, u, v =>
    if keyEq p.1 u then (p.1, v) :: rest else p :: insertU rest u v

/-- Minimum of a list with a default for the empty case, modelling
iterator min().unwrap_or(default). -/
def minimumD : List Nat → Nat → Nat
  | [], d => d
  | a :: as, _ => as.foldl min a

-- ---------------------------------------------------------------------
-- Graph model (source: src/graph.rs)
-- ---------------------------------------------------------------------

/-- Model of struct Edge: target node index and the two strand booleans. -/
structure Edge where
  «to» : Nat
  start : Bool
  «end» : Bool
deriving DecidableEq, Repr

/-- Model of struct Node. -/
structure Node where
  kmer : Dna
  complement : Dna
  count : Nat
  out : List Edge
  into : List Edge
deriving DecidableEq, Repr

/-- Model of struct Graph. -/
structure Graph where
  nodes : List Node
  k : Nat
deriving DecidableEq, Repr

/-- Strand selection: the sequence a node carries on a given strand
(true = forward k-mer, false = cached reverse complement). -/
def strand (n : Node) (d : Bool) : Dna := if d then n.kmer else n.complement

/-- Result of a fueled model of an unbounded Rust loop: a panic, fuel
exhaustion, or normal termination. -/
inductive PRes (α : Type) where
  | panic : PRes α
  | more : PRes α
  | ok : α → PRes α
deriving DecidableEq, Repr

/-- Map over the normal-termination value. -/
def PRes.map (f : α → β) : PRes α → PRes β
  | .panic => .panic
  | .more => .more
  | .ok a => .ok (f a)

/-- Model of Graph::supp (source: src/graph.rs lines 91 to 103): memoized
support.  On a memo miss the Rust code computes the range
0..(u.len() - k + 1); under checked arithmetic the subtraction panics when
the length of u is below k, hence the none branch.  Each length-k slice is
converted by try_from (unwrap: none on failure) and looked up, a missing
entry contributing 0; the minimum is memoized under key u and returned. -/
def Graph.supp (u : Dna) (k : Nat) (supp : UMap Nat) : Option (Nat × UMap Nat) :=
  match lookupU supp u with
  | some s => some (s, supp)
  | none =>
    if u.length < k then none
    else
      match collectO ((List.range (u.length - k + 1)).map
          (fun i => (asUnitig (substr u i (i + k))).map
            (fun w => (lookupU supp w).getD 0))) with
      | none => none
      | some vals => some (minimumD vals 0, insertU supp u (minimumD vals 0))

/-- Specification helper: the list of length-k slices of u (meaningful when
k is at most the length of u). -/
def windows (u : Dna) (k : Nat) : List Dna :=
  (List.range (u.length - k + 1)).map (fun i => substr u i (i + k))

/-- Specification helper: minimum over the windows of u of their values in
a table, missing entries counting 0 (what Graph::supp computes on a miss). -/
def minWinVals (T0 : UMap Nat) (k : Nat) (u : Dna) : Nat :=
  minimumD ((windows u k).map (fun w => (lookupU T0 w).getD 0)) 0

/-- Mutable state threaded through Graph::closure and Graph::close:
the support memo, the is_closed marking and the progress counter. -/
structure ClosureSt where
  supp : UMap Nat
  is_closed : UMap Bool
  n_closed : Nat
deriving DecidableEq, Repr

/-- Scan of an edge list as done by the two for loops in Graph::closure:
skip edges whose start strand does not match, look the target node up
(none = index panic), skip targets already contained in m on either strand,
and stop at the first edge whose target count is at least s.  Returns the
target node, the joining k-mer (forward or complement according to the end
strand), its count and the end strand. -/
def findExt (nodes : List Node) (m : Dna) (d : Bool) (s : Nat) :
    List Edge → Option (Option (Node × Dna × Nat × Bool))
  | [] => some none
  | e :: rest =>
    if e.start ≠ d then findExt nodes m d s rest
    else
      match nodes[e.«to»]? with
      | none => none
      | some node =>
        if Unitig.contains m node.kmer || Unitig.contains m node.complement
        then findExt nodes m d s rest
        else
          let kmer := if e.«end» then node.kmer else node.complement
          if node.count ≥ s then some (some (node, kmer, node.count, e.«end»))
          else findExt nodes m d s rest

/-- Model of Graph::closure (source: src/graph.rs lines 106 to 157), with
fuel for the unbounded loop.  Each iteration recomputes the memoized
support of m, tries to extend to the right through the out edges of last,
then to the left through the into edges of first; a successful extension
marks the joining k-mer closed when its count equals the support, joins it
to m and loops; when neither side extends, m is marked closed and
returned. -/
def Graph.closure (g : Graph) (k : Nat) :
    Nat → Dna → Node × Bool → Node × Bool → ClosureSt → PRes (Dna × ClosureSt)
  | 0, _, _, _, _ => .more
  | fuel+1, m, first, last, st =>
    match Graph.supp m k st.supp with
    | none => .panic
    | some (s, T) =>
      let st1 : ClosureSt := { st with supp := T }
      match findExt g.nodes m last.2 s last.1.out with
      | none => .panic
      | some (some (node, kmer, c, e)) =>
        let st2 := if c = s then
          { st1 with is_closed := insertU st1.is_closed kmer true,
                     n_closed := st1.n_closed + 1 }
          else st1
        match Unitig.add m kmer with
        | none => .panic
        | some m2 => Graph.closure g k fuel m2 first (node, e) st2
      | some none =>
        match findExt g.nodes m first.2 s first.1.into with
        | none => .panic
        | some (some (node, kmer, c, e)) =>
          let st2 := if c = s then
            { st1 with is_closed := insertU st1.is_closed kmer true,
                       n_closed := st1.n_closed + 1 }
            else st1
          match Unitig.add kmer m with
          | none => .panic
          | some m2 => Graph.closure g k fuel m2 (node, e) last st2
        | some none =>
          .ok (m, { st1 with is_closed := insertU st1.is_closed m true,
                             n_closed := st1.n_closed + 1 })

/-- Left loop of Graph::shrink: advance a while a + k < b and the support
of the slice at a strictly exceeds s; none models the unwrap panic on a
missing entry.  The fuel is always called with more than b - a, so the
fuel-out branch is unreachable. -/
def shrinkA (u : Dna) (k : Nat) (T : UMap Nat) (s b : Nat) :
    Nat → Nat → Option Nat
  | 0, _ => none
  | fuel+1, a =>
    if a + k < b then
      match (asUnitig (substr u a (a + k))).bind (lookupU T) with
      | none => none
      | some v => if v > s then shrinkA u k T s b fuel (a + 1) else some a
    else some a

/-- Right loop of Graph::shrink: decrease b while b is at least k and the
support of the slice ending at b strictly exceeds s.  When b reaches 0 with
the condition still true, the Rust usize decrement panics (only possible
for k = 0), hence the none branch. -/
def shrinkB (u : Dna) (k : Nat) (T : UMap Nat) (s : Nat) :
    Nat → Nat → Option Nat
  | 0, _ => none
  | fuel+1, b =>
    if k ≤ b then
      match (asUnitig (substr u (b - k) b)).bind (lookupU T) with
      | none => none
      | some v =>
        if v > s then (if b = 0 then none else shrinkB u k T s fuel (b - 1))
        else some b
    else some b

/-- Model of Graph::shrink (source: src/graph.rs lines 160 to 169): trims
both extremities while their k-mer support strictly exceeds the support of
the whole unitig, and returns the slice together with that support. -/
def Graph.shrink (u : Dna) (k : Nat) (T : UMap Nat) : Option (Dna × Nat) :=
  match lookupU T u with
  | none => none
  | some s =>
    match shrinkA u k T s u.length (u.length + 1) 0 with
    | none => none
    | some a =>
      match shrinkB u k T s (u.length + 2) u.length with
      | none => none
      | some b => (asUnitig (substr u a b)).map (fun w => (w, s))

/-- Seeding loop of Graph::close: support of every k-mer is its count. -/
def seedSupp (nodes : List Node) : UMap Nat :=
  nodes.foldl (fun t n => insertU t n.kmer n.count) []

/-- Seeding loop of Graph::close: is_closed of every k-mer starts false. -/
def seedClosed (nodes : List Node) : UMap Bool :=
  nodes.foldl (fun t n => insertU t n.kmer false) []

/-- Main loop of Graph::close over the node list: skip closed k-mers,
close and shrink the others.  The trace records, for every processed node,
the closure output together with its shrunk form and reported count. -/
def closeLoop (g : Graph) (k fuel : Nat) :
    List Node → ClosureSt → PRes (List (Dna × Dna × Nat) × ClosureSt)
  | [], st => .ok ([], st)
  | node :: rest, st =>
    match lookupU st.is_closed node.kmer with
    | none => .panic
    | some true => closeLoop g k fuel rest st
    | some false =>
      match g.closure k fuel node.kmer (node, true) (node, true) st with
      | .panic => .panic
      | .more => .more
      | .ok (mclo, st2) =>
        match Graph.shrink mclo k st2.supp with
        | none => .panic
        | some (u, c) =>
          match closeLoop g k fuel rest st2 with
          | .ok (tr, st3) => .ok ((mclo, u, c) :: tr, st3)
          | r => r

/-- Trace of Graph::close: every (closure output, shrunk unitig, count)
triple produced by the main loop, in node order. -/
def Graph.closeTrace (g : Graph) (fuel : Nat) : PRes (List (Dna × Dna × Nat)) :=
  (closeLoop g g.k fuel g.nodes
    { supp := seedSupp g.nodes, is_closed := seedClosed g.nodes,
      n_closed := 0 }).map (fun r => r.1)

/-- Pairs inserted by Graph::close into the closed output map, in
insertion order. -/
def Graph.closePairs (g : Graph) (fuel : Nat) : PRes (List (Dna × Nat)) :=
  (g.closeTrace fuel).map (fun tr => tr.map (fun t => (t.2.1, t.2.2)))

/-- The closed output map of Graph::close built from the inserted pairs
(a map deduplicates unitigs equal up to strand). -/
def closedMapL (ps : List (Dna × Nat)) : UMap Nat :=
  ps.foldl (fun m p => insertU m p.1 p.2) []

/-- Stable sort by count, modelling sort_by_key in Graph::close.  Both
insertion sort and the Rust sort are stable, so they agree on any given
collection order; the collection order of a HashMap is unspecified, so
only count order and the pair contents are meaningful. -/
def sortPairs (l : List (Dna × Nat)) : List (Dna × Nat) :=
  List.insertionSort (fun a b => a.2 ≤ b.2) l

/-- Model of Graph::close (source: src/graph.rs lines 172 to 202): the
emitted (unitig, count) pairs, sorted by count ascending. -/
def Graph.close (g : Graph) (fuel : Nat) : PRes (List (Dna × Nat)) :=
  (g.closePairs fuel).map (fun ps => sortPairs (closedMapL ps))

/-- Lines written to the fasta sink: one unitig per record (each preceded
by a bare header, not modelled). -/
def emitFasta (out : List (Dna × Nat)) : List Dna := out.map (fun p => p.1)

/-- Lines written to the counts sink, emitted by the same loop in the same
order. -/
def emitCounts (out : List (Dna × Nat)) : List Nat := out.map (fun p => p.2)

-- ---------------------------------------------------------------------
-- Graph construction (source: src/graph.rs, impl From for Graph).
-- The line parsing (regex extraction of the ab:Z counts and L links from
-- the header) is out of scope per the specification; a Record carries the
-- already-extracted counts, links and sequence line of one record.
-- ---------------------------------------------------------------------

/-- One input record: its abundance vector, its link annotations
(start strand, target record, end strand) and its sequence line. -/
structure Record where
  counts : List Nat
  links : List (Bool × Nat × Bool)
  seq : Dna
deriving DecidableEq, Repr

/-- Pointwise update of a list at an index (no-op out of range; used only
at indices known to be in range). -/
def updateAt : List α → Nat → (α → α) → List α
  | [], _, _ => []
  | a :: as, 0, f => f a :: as
  | a :: as, i+1, f => a :: updateAt as i f

/-- Checked update, modelling Vec indexing that panics out of range. -/
def modifyCk (l : List α) (i : Nat) (f : α → α) : Option (List α) :=
  if i < l.length then some (updateAt l i f) else none

/-- Push an edge on the out list of node i. -/
def pushOut (nodes : List Node) (i : Nat) (e : Edge) : List Node :=
  updateAt nodes i (fun n => { n with out := n.out ++ [e] })

/-- Push an edge on the into list of node i. -/
def pushInto (nodes : List Node) (i : Nat) (e : Edge) : List Node :=
  updateAt nodes i (fun n => { n with into := n.into ++ [e] })

/-- Forward chaining loop of graph construction: for i in first..last,
push i to i+1 forward on out and the reverse-strand twin on into. -/
def chainFwd (nodes : List Node) (first lst : Nat) : List Node :=
  (List.range' first (lst - first)).foldl
    (fun ns i => pushInto (pushOut ns i ⟨i+1, true, true⟩) i ⟨i+1, false, false⟩)
    nodes

/-- Reverse chaining loop: for i in first+1..=last, push i to i-1 on the
reverse strand on out and the forward twin on into. -/
def chainRev (nodes : List Node) (first lst : Nat) : List Node :=
  (List.range' (first + 1) (lst - first)).foldl
    (fun ns i => pushInto (pushOut ns i ⟨i-1, false, false⟩) i ⟨i-1, true, true⟩)
    nodes

/-- Model of Graph::append: validate the slice as a Unitig, cache its
reverse complement, push the node (source: src/graph.rs lines 85 to 88 and
Node::new). -/
def Graph.append (g : Graph) (s : Dna) (count : Nat) : Option Graph :=
  match Unitig.try_from s with
  | .error _ => none
  | .ok u =>
    match utils.rev_compl u with
    | none => none
    | some comp =>
      some { g with nodes := g.nodes ++
        [{ kmer := u, complement := comp, count := count, out := [], into := [] }] }

/-- Node-appending loop of one record: for every count, assert the slice
fits and append the k-mer node. -/
def appendKmers (g : Graph) (seq : Dna) : List Nat → Nat → Option Graph
  | [], _ => some g
  | c :: rest, i =>
    if seq.length < i + g.k then none
    else
      match g.append (substr seq i (i + g.k)) c with
      | none => none
      | some g2 => appendKmers g2 seq rest (i + 1)

/-- Processing of one record by the construction loop: set k from the
first record, append the k-mer nodes, chain them in both directions,
record the (first, last) node range and the pending links. -/
def processRecord
    (st : Graph × List (Nat × Nat) × List ((Nat × Bool) × (Nat × Bool)))
    (r : Record) :
    Option (Graph × List (Nat × Nat) × List ((Nat × Bool) × (Nat × Bool))) :=
  let (g, ranges, pend) := st
  let gk : Option Graph :=
    if g.k = 0 then
      if r.seq.length < r.counts.length then none
      else some { g with k := r.seq.length - r.counts.length + 1 }
    else some g
  match gk with
  | none => none
  | some g1 =>
    let first := g1.nodes.length
    match appendKmers g1 r.seq r.counts 0 with
    | none => none
    | some g2 =>
      if g2.nodes.length = 0 then none
      else
        let lst := g2.nodes.length - 1
        some ({ g2 with nodes := chainRev (chainFwd g2.nodes first lst) first lst },
              ranges ++ [(first, lst)],
              pend ++ r.links.map (fun l => ((ranges.length, l.1), (l.2.1, l.2.2))))

/-- Resolution of one pending inter-record link: pick the endpoint nodes
from the record ranges, skip self loops, and push the edge and its
reversed twin (source: src/graph.rs lines 277 to 289). -/
def resolveLink (ranges : List (Nat × Nat)) (nodes : List Node)
    (l : (Nat × Bool) × (Nat × Bool)) : Option (List Node) :=
  match ranges[l.1.1]?, ranges[l.2.1]? with
  | some fromR, some toR =>
    let fromN := if l.1.2 then fromR.2 else fromR.1
    let toN := if l.2.2 then toR.1 else toR.2
    if fromN = toN then some nodes
    else
      match modifyCk nodes fromN
        (fun n => { n with out := n.out ++ [⟨toN, l.1.2, l.2.2⟩] }) with
      | none => none
      | some ns =>
        modifyCk ns toN
          (fun n => { n with into := n.into ++ [⟨fromN, l.2.2, l.1.2⟩] })
  | _, _ => none

/-- Model of impl From for Graph (source: src/graph.rs lines 206 to 295)
at record granularity: process every record, then resolve the pending
links. -/
def Graph.fromRecords (recs : List Record) : Option Graph :=
  match recs.foldlM processRecord ({ nodes := [], k := 0 }, [], []) with
  | none => none
  | some (g, ranges, pend) =>
    match pend.foldlM (resolveLink ranges) g.nodes with
    | none => none
    | some nodes => some { g with nodes := nodes }

-- ---------------------------------------------------------------------
-- Well-formedness of the input and of the built graph
-- ---------------------------------------------------------------------

/-- The k value the first record determines (line length minus abundance
count plus one). -/
def kOf : List Record → Nat
  | [] => 0
  | r :: _ => r.seq.length - r.counts.length + 1

/-- Overlap a link presents on the side of its source record: the last
k-1 characters going out forward, the reverse complement of the first k-1
going out backward. -/
def epOut (k : Nat) (r : Record) (s : Bool) : Dna :=
  if s then r.seq.drop (r.seq.length - (k - 1)) else rcT (r.seq.take (k - 1))

/-- Overlap a link expects on the side of its target record. -/
def epIn (k : Nat) (r : Record) (e : Bool) : Dna :=
  if e then r.seq.take (k - 1) else rcT (r.seq.drop (r.seq.length - (k - 1)))

/-- Well-formedness of one record: a valid upper-case sequence, a
non-empty abundance vector, and the length relation of the input grammar
(sequence length = count + k - 1). -/
def WFRec (k : Nat) (r : Record) : Bool :=
  uValid r.seq && decide (r.counts ≠ []) &&
    decide (r.seq.length + 1 = r.counts.length + k)

/-- Truthfulness of the links of one record: every link names an existing
record and denotes a real k-1 overlap between the two strand ends, which
is what BCALM link records mean. -/
def linkOK (recs : List Record) (k : Nat) (r : Record) : Bool :=
  r.links.all fun l =>
    match recs[l.2.1]? with
    | none => false
    | some rt => decide (epOut k r l.1 = epIn k rt l.2.2)

/-- Well-formed input: at least one record, every record well formed for
the k of the first record, and all links truthful. -/
def WFRecs (recs : List Record) : Bool :=
  decide (recs ≠ []) && decide (1 ≤ kOf recs) &&
    recs.all (WFRec (kOf recs)) && recs.all (linkOK recs (kOf recs))

/-- Node-level well-formedness the construction guarantees: a positive k
and, for every node, a valid k-mer of length k whose cached complement is
its reverse complement. -/
def WFnodes (g : Graph) : Prop :=
  1 ≤ g.k ∧ ∀ n ∈ g.nodes,
    uValid n.kmer = true ∧ n.kmer.length = g.k ∧ n.complement = rcT n.kmer

/-- Edge-level well-formedness the construction guarantees: every stored
edge points at an existing node and carries a real k-1 overlap between
the strand it leaves and the strand it enters. -/
def WFedges (g : Graph) : Prop :=
  ∀ n ∈ g.nodes,
    (∀ e ∈ n.out, ∃ t, g.nodes[e.«to»]? = some t ∧
      (strand n e.start).drop 1 = (strand t e.«end»).take (g.k - 1)) ∧
    (∀ e ∈ n.into, ∃ t, g.nodes[e.«to»]? = some t ∧
      (strand t e.«end»).drop 1 = (strand n e.start).take (g.k - 1))

/-- The construction-invariant part of a node: everything except its edge
lists (which the construction keeps growing). -/
def nodeCore (n : Node) : Dna × Dna × Nat := (n.kmer, n.complement, n.count)

/-- Edge-level well-formedness of a bare node list for a given k: the body
of WFedges, stated during construction before the graph record exists. -/
def edgesOK (k : Nat) (nodes : List Node) : Prop :=
  ∀ n ∈ nodes,
    (∀ e ∈ n.out, ∃ t, nodes[e.«to»]? = some t ∧
      (strand n e.start).drop 1 = (strand t e.«end»).take (k - 1)) ∧
    (∀ e ∈ n.into, ∃ t, nodes[e.«to»]? = some t ∧
      (strand t e.«end»).drop 1 = (strand n e.start).take (k - 1))

/-- Adjacency of two consecutive nodes of a record: the forward strands
overlap by k-1 left to right, the reverse strands right to left. -/
def adjOK (k : Nat) (nodes : List Node) (i : Nat) : Prop :=
  ∃ a b, nodes[i]? = some a ∧ nodes[i + 1]? = some b ∧
    (strand a true).drop 1 = (strand b true).take (k - 1) ∧
    (strand b false).drop 1 = (strand a false).take (k - 1)

/-- What a recorded record range means: its two components index the first
and last node of the record, whose k-mers are the two endpoint k-mers of
the record sequence. -/
def rangeFact (ranges : List (Nat × Nat)) (nodes : List Node) (k : Nat)
    (i : Nat) (r : Record) : Prop :=
  ∃ p, ranges[i]? = some p ∧
    (∃ nf, nodes[p.1]? = some nf ∧ nf.kmer = r.seq.take k) ∧
    (∃ nl, nodes[p.2]? = some nl ∧
      nl.kmer = r.seq.drop (r.seq.length - k))

/-- Provenance of a pending link: it was emitted by the record at its
stored source index, from one of that record's link annotations. -/
def pendOK (recs : List Record)
    (pend : List ((Nat × Bool) × (Nat × Bool))) : Prop :=
  ∀ q ∈ pend, ∃ rs, recs[q.1.1]? = some rs ∧
    (q.1.2, q.2.1, q.2.2) ∈ rs.links

/-- Invariant of the support memo during a run of Graph::close, relative
to the seeded table T0: seeded entries never change, and every readable
value is the window minimum (over T0) of a valid key of length at least k
all of whose windows are seeded. -/
structure SuppInv (T0 : UMap Nat) (k : Nat) (T : UMap Nat) : Prop where
  ext : ∀ u v, lookupU T0 u = some v → lookupU T u = some v
  vals : ∀ u v, lookupU T u = some v →
    uValid u = true ∧ k ≤ u.length ∧
    (∀ w ∈ windows u k, (lookupU T0 w).isSome = true) ∧
    v = minWinVals T0 k u

-- ---------------------------------------------------------------------
-- Concrete inputs used by the witness theorems
-- ---------------------------------------------------------------------

/-- Scenario C record: header ab:Z:5 2 5 (counts 5 2 5, no links) with
sequence line ACGTAC, so k = 4. -/
def recC : Record :=
  { counts := [5, 2, 5], links := [], seq := ['A', 'C', 'G', 'T', 'A', 'C'] }

/-- Graph built from the scenario C record. -/
def gC : Graph := (Graph.fromRecords [recC]).getD { nodes := [], k := 0 }

/-- Two-node graph whose k-mers are reverse complements of each other,
with distinct counts. -/
def gW : Graph :=
  { nodes :=
      [{ kmer := ['A', 'A', 'C', 'C'], complement := rcT ['A', 'A', 'C', 'C'],
         count := 3, out := [], into := [] },
       { kmer := ['G', 'G', 'T', 'T'], complement := rcT ['G', 'G', 'T', 'T'],
         count := 7, out := [], into := [] }],
    k := 4 }

-- ---------------------------------------------------------------------
-- Basic lemmas about the nucleotide algebra
-- ---------------------------------------------------------------------

theorem complement_eq_some_complT {c : Char} (h : validNuc c = true) :
    utils.complement c = some (complT c) := by
  simp only [validNuc, Bool.or_eq_true, decide_eq_true_eq] at h
  rcases h with ((h | h) | h) | h <;> subst h <;> rfl

theorem complement_eq_none {c : Char} (h : validNuc c = false) :
    utils.complement c = none := by
  simp only [validNuc, Bool.or_eq_true, decide_eq_true_eq] at h
  unfold utils.complement
  split
  · simp at h
  · simp at h
  · simp at h
  · simp at h
  · rfl

theorem validNuc_complT {c : Char} (h : validNuc c = true) :
    validNuc (complT c) = true := by
  simp only [validNuc, Bool.or_eq_true, decide_eq_true_eq] at h ⊢
  rcases h with ((h | h) | h) | h <;> subst h <;> simp [complT]

theorem complT_eq_self {c : Char} (h : validNuc c = false) : complT c = c := by
  simp only [validNuc, Bool.or_eq_false_iff, decide_eq_false_iff_not] at h
  unfold complT
  split <;> simp_all

theorem complT_complT {c : Char} : complT (complT c) = c := by
  cases hv : validNuc c
  · rw [complT_eq_self hv, complT_eq_self hv]
  · simp only [validNuc, Bool.or_eq_true, decide_eq_true_eq] at hv
    rcases hv with ((h | h) | h) | h <;> subst h <;> rfl

theorem collectO_map_eq_some {l : List α} {f : α → Option β} {g : α → β}
    (h : ∀ a ∈ l, f a = some (g a)) :
    collectO (l.map f) = some (l.map g) := by
  induction l with
  | nil => rfl
  | cons a rest ih =>
    simp only [List.map_cons]
    rw [h a (List.mem_cons_self a rest)]
    simp only [collectO]
    rw [ih (fun x hx => h x (List.mem_cons_of_mem a hx))]
    rfl

theorem rev_compl_eq_some_rcT {s : Dna} (h : uValid s = true) :
    utils.rev_compl s = some (rcT s) := by
  unfold utils.rev_compl rcT
  rw [collectO_map_eq_some (g := complT)]
  · rfl
  · intro a ha
    exact complement_eq_some_complT (by
      simp only [uValid, List.all_eq_true] at h
      exact h a ha)

theorem collectO_map_eq_none {l : List α} {f : α → Option β} {a : α}
    (ha : a ∈ l) (h : f a = none) : collectO (l.map f) = none := by
  induction l with
  | nil => cases ha
  | cons x rest ih =>
    simp only [List.map_cons]
    rcases List.mem_cons.1 ha with rfl | hmem
    · rw [h]; rfl
    · cases hx : f x
      · rfl
      · simp only [collectO]
        rw [ih hmem]
        rfl

theorem rev_compl_eq_none {s : Dna} (h : uValid s = false) :
    utils.rev_compl s = none := by
  simp only [uValid, List.all_eq_false] at h
  obtain ⟨c, hc, hv⟩ := h
  unfold utils.rev_compl
  rw [collectO_map_eq_none hc (complement_eq_none (by simpa using hv))]
  rfl

theorem uValid_rcT {s : Dna} (h : uValid s = true) : uValid (rcT s) = true := by
  simp only [uValid, List.all_eq_true, rcT, List.mem_reverse, List.mem_map] at h ⊢
  rintro x ⟨c, hc, rfl⟩
  exact validNuc_complT (h c hc)

theorem uValid_rcT_false {s : Dna} (h : uValid s = false) : uValid (rcT s) = false := by
  simp only [uValid, List.all_eq_false, rcT, List.mem_reverse, List.mem_map] at h ⊢
  obtain ⟨c, hc, hv⟩ := h
  exact ⟨complT c, ⟨c, hc, rfl⟩, by
    cases hcc : validNuc c
    · rw [complT_eq_self hcc]; simpa using hv
    · exact absurd hcc hv⟩

theorem rcT_rcT (s : Dna) : rcT (rcT s) = s := by
  unfold rcT
  rw [List.map_reverse, List.reverse_reverse, List.map_map]
  have : complT ∘ complT = id := by
    funext c; exact complT_complT
  rw [this, List.map_id]

theorem rcT_length (s : Dna) : (rcT s).length = s.length := by
  simp [rcT]

theorem lexLt_asymm : ∀ {a b : Dna}, lexLt a b = true → lexLt b a = false
  | [], [], h => by simp [lexLt] at h
  | [], _ :: _, _ => rfl
  | _ :: _, [], h => by simp [lexLt] at h
  | a :: as, b :: bs, h => by
    simp only [lexLt, Bool.or_eq_true, Bool.and_eq_true, decide_eq_true_eq] at h
    simp only [lexLt, Bool.or_eq_false_iff, Bool.and_eq_false_iff]
    rcases h with h | ⟨rfl, h2⟩
    · exact ⟨by simp [lt_asymm h], Or.inl (by simp [ne_of_gt h])⟩
    · exact ⟨by simp, Or.inr (lexLt_asymm h2)⟩

theorem lexLt_eq_of_not : ∀ {a b : Dna},
    lexLt a b = false → lexLt b a = false → a = b
  | [], [], _, _ => rfl
  | [], _ :: _, h1, _ => by simp [lexLt] at h1
  | _ :: _, [], _, h2 => by simp [lexLt] at h2
  | a :: as, b :: bs, h1, h2 => by
    simp only [lexLt, Bool.or_eq_false_iff, Bool.and_eq_false_iff,
      decide_eq_false_iff_not] at h1 h2
    obtain ⟨hab, h1r⟩ := h1
    obtain ⟨hba, h2r⟩ := h2
    have heq : a = b := le_antisymm (le_of_not_lt (by simpa using hba))
      (le_of_not_lt (by simpa using hab))
    subst heq
    rcases h1r with h | h
    · simp at h
    · rcases h2r with h2 | h2
      · simp at h2
      · rw [lexLt_eq_of_not h h2]

theorem norm_eq_some_valid {s : Dna} (h : uValid s = true) :
    utils.norm s = some (if lexLt (rcT s) s then rcT s else s) := by
  unfold utils.norm
  rw [rev_compl_eq_some_rcT h]

theorem norm_eq_none {s : Dna} (h : uValid s = false) : utils.norm s = none := by
  unfold utils.norm
  rw [rev_compl_eq_none h]

theorem norm_rcT (s : Dna) : utils.norm (rcT s) = utils.norm s := by
  cases hv : uValid s
  · rw [norm_eq_none hv, norm_eq_none (uValid_rcT_false hv)]
  · rw [norm_eq_some_valid hv, norm_eq_some_valid (uValid_rcT hv), rcT_rcT]
    congr 1
    cases h1 : lexLt s (rcT s)
    · cases h2 : lexLt (rcT s) s
      · have heq := lexLt_eq_of_not h2 h1
        simp [heq]
      · simp
    · rw [lexLt_asymm h1]
      simp

theorem norm_cases {s n : Dna} (h : utils.norm s = some n) :
    n = s ∨ n = rcT s := by
  cases hv : uValid s
  · rw [norm_eq_none hv] at h; cases h
  · rw [norm_eq_some_valid hv] at h
    cases hl : lexLt (rcT s) s <;> rw [hl] at h <;> simp at h
    · exact Or.inl h.symm
    · exact Or.inr h.symm

theorem norm_isSome_valid {s : Dna} (h : uValid s = true) :
    (utils.norm s).isSome = true := by
  rw [norm_eq_some_valid h]; rfl

theorem norm_some_valid {s n : Dna} (h : utils.norm s = some n) :
    uValid s = true := by
  cases hv : uValid s
  · rw [norm_eq_none hv] at h; cases h
  · rfl

theorem norm_length {s n : Dna} (h : utils.norm s = some n) :
    n.length = s.length := by
  rcases norm_cases h with rfl | rfl
  · rfl
  · exact rcT_length s

theorem norm_eq_cases {a b : Dna} (ha : uValid a = true)
    (h : utils.norm a = utils.norm b) : b = a ∨ b = rcT a := by
  obtain ⟨na, hna⟩ := Option.isSome_iff_exists.1 (norm_isSome_valid ha)
  have hnb : utils.norm b = some na := by rw [← h, hna]
  rcases norm_cases hna with h1 | h1 <;> rcases norm_cases hnb with h2 | h2
  · exact Or.inl (by rw [← h2, h1])
  · right
    have hba : rcT b = a := by rw [← h2, h1]
    calc b = rcT (rcT b) := (rcT_rcT b).symm
    _ = rcT a := by rw [hba]
  · exact Or.inr (by rw [← h2, h1])
  · left
    have hba : rcT b = rcT a := by rw [← h2, h1]
    have h3 := congrArg rcT hba
    rwa [rcT_rcT, rcT_rcT] at h3

-- ---------------------------------------------------------------------
-- Lemmas about canonical-key maps
-- ---------------------------------------------------------------------

theorem keyEq_iff {a b : Dna} : keyEq a b = true ↔ utils.norm a = utils.norm b := by
  simp [keyEq]

theorem keyEq_refl (a : Dna) : keyEq a a = true := keyEq_iff.2 rfl

theorem keyEq_symm {a b : Dna} (h : keyEq a b = true) : keyEq b a = true :=
  keyEq_iff.2 (keyEq_iff.1 h).symm

theorem keyEq_trans {a b c : Dna} (h1 : keyEq a b = true)
    (h2 : keyEq b c = true) : keyEq a c = true :=
  keyEq_iff.2 ((keyEq_iff.1 h1).trans (keyEq_iff.1 h2))

theorem keyEq_rcT (a : Dna) : keyEq (rcT a) a = true :=
  keyEq_iff.2 (norm_rcT a)

theorem lookupU_congr {T : UMap β} {a b : Dna} (h : keyEq a b = true) :
    lookupU T a = lookupU T b := by
  induction T with
  | nil => rfl
  | cons p rest ih =>
    simp only [lookupU]
    cases hp : keyEq p.1 a
    · cases hq : keyEq p.1 b
      · simp [ih]
      · exact absurd (keyEq_trans hq (keyEq_symm h)) (by simp [hp])
    · rw [keyEq_trans hp h]
      simp

theorem lookupU_insertU (T : UMap β) (u w : Dna) (v : β) :
    lookupU (insertU T u v) w =
      if keyEq u w then some v else lookupU T w := by
  induction T with
  | nil => simp [insertU, lookupU]
  | cons p rest ih =>
    by_cases hp : keyEq p.1 u = true
    · rw [show insertU (p :: rest) u v = (p.1, v) :: rest by simp [insertU, hp]]
      by_cases hq : keyEq p.1 w = true
      · have huw : keyEq u w = true := keyEq_trans (keyEq_symm hp) hq
        simp [lookupU, hq, huw]
      · have huw : keyEq u w = false := by
          cases h2 : keyEq u w
          · rfl
          · exact absurd (keyEq_trans hp h2) (by simp [hq])
        simp [lookupU, hq, huw]
    · rw [show insertU (p :: rest) u v = p :: insertU rest u v by
        simp [insertU, hp]]
      by_cases hq : keyEq p.1 w = true
      · have huw : keyEq u w = false := by
          cases h2 : keyEq u w
          · rfl
          · exact absurd (keyEq_trans hq (keyEq_symm h2)) (by simp [hp])
        simp [lookupU, hq, huw]
      · simp [lookupU, hq, ih]

theorem lookupU_insertU_isSome {T : UMap β} {u w : Dna} {v : β}
    (h : (lookupU T w).isSome = true) :
    (lookupU (insertU T u v) w).isSome = true := by
  rw [lookupU_insertU]
  cases keyEq u w
  · simpa using h
  · simp

theorem lookupU_insertU_pres {T : UMap β} {u w : Dna} {v x : β}
    (hmiss : lookupU T u = none) (h : lookupU T w = some x) :
    lookupU (insertU T u v) w = some x := by
  rw [lookupU_insertU]
  cases huw : keyEq u w
  · simpa using h
  · rw [lookupU_congr huw] at hmiss
    rw [hmiss] at h
    cases h

-- ---------------------------------------------------------------------
-- Lemmas about the iterator minimum
-- ---------------------------------------------------------------------

theorem foldl_min_le_init (as : List Nat) (a : Nat) :
    as.foldl min a ≤ a := by
  induction as generalizing a with
  | nil => exact le_refl a
  | cons c rest ih => exact le_trans (ih (min a c)) (min_le_left a c)

theorem foldl_min_le_mem {as : List Nat} {x : Nat} (hx : x ∈ as) (a : Nat) :
    as.foldl min a ≤ x := by
  induction as generalizing a with
  | nil => cases hx
  | cons c rest ih =>
    rcases List.mem_cons.1 hx with rfl | hmem
    · exact le_trans (foldl_min_le_init rest (min a x)) (min_le_right a x)
    · exact ih hmem (min a c)

theorem minimumD_le {l : List Nat} {x : Nat} (hx : x ∈ l) (d : Nat) :
    minimumD l d ≤ x := by
  cases l with
  | nil => cases hx
  | cons a as =>
    rcases List.mem_cons.1 hx with rfl | hmem
    · exact foldl_min_le_init as x
    · exact foldl_min_le_mem hmem a

theorem foldl_min_mem (as : List Nat) (a : Nat) :
    as.foldl min a ∈ a :: as := by
  induction as generalizing a with
  | nil => simp [List.foldl]
  | cons c rest ih =>
    have h := ih (min a c)
    simp only [List.foldl]
    rcases le_total a c with hle | hle
    · rw [min_eq_left hle] at h ⊢
      rcases List.mem_cons.1 h with h | h
      · simp [h]
      · simp [h]
    · rw [min_eq_right hle] at h ⊢
      rcases List.mem_cons.1 h with h | h
      · simp [h]
      · simp [h]

theorem minimumD_mem {l : List Nat} (h : l ≠ []) (d : Nat) :
    minimumD l d ∈ l := by
  cases l with
  | nil => exact absurd rfl h
  | cons a as => exact foldl_min_mem as a

-- ---------------------------------------------------------------------
-- Validity, upper-casing and slicing lemmas
-- ---------------------------------------------------------------------

theorem toUpper_validNuc {c : Char} (h : validNuc c = true) : c.toUpper = c := by
  simp only [validNuc, Bool.or_eq_true, decide_eq_true_eq] at h
  rcases h with ((h | h) | h) | h <;> subst h <;> decide

theorem toUpperSeq_valid {s : Dna} (h : uValid s = true) : toUpperSeq s = s := by
  simp only [uValid, List.all_eq_true] at h
  unfold toUpperSeq
  induction s with
  | nil => rfl
  | cons c rest ih =>
    simp only [List.map_cons]
    rw [toUpper_validNuc (h c (List.mem_cons_self c rest)),
      ih (fun x hx => h x (List.mem_cons_of_mem c hx))]

theorem try_from_valid {s : Dna} (h : uValid s = true) :
    Unitig.try_from s = .ok s := by
  have hf : s.find? (fun c => !validNuc c) = none := by
    rw [List.find?_eq_none]
    intro x hx
    simp only [uValid, List.all_eq_true] at h
    simp [h x hx]
  simp only [Unitig.try_from, toUpperSeq_valid h, hf]

theorem asUnitig_valid {s : Dna} (h : uValid s = true) : asUnitig s = some s := by
  unfold asUnitig
  rw [try_from_valid h]
  rfl

theorem uValid_take {s : Dna} (h : uValid s = true) (n : Nat) :
    uValid (s.take n) = true := by
  simp only [uValid, List.all_eq_true] at h ⊢
  exact fun x hx => h x (List.mem_of_mem_take hx)

theorem uValid_drop {s : Dna} (h : uValid s = true) (n : Nat) :
    uValid (s.drop n) = true := by
  simp only [uValid, List.all_eq_true] at h ⊢
  exact fun x hx => h x (List.mem_of_mem_drop hx)

theorem uValid_substr {s : Dna} (h : uValid s = true) (i j : Nat) :
    uValid (substr s i j) = true :=
  uValid_take (uValid_drop h i) _

theorem uValid_append {a b : Dna} (ha : uValid a = true) (hb : uValid b = true) :
    uValid (a ++ b) = true := by
  simp only [uValid, List.all_eq_true, List.mem_append] at ha hb ⊢
  rintro x (hx | hx)
  · exact ha x hx
  · exact hb x hx

theorem substr_length {u : Dna} {i j : Nat} (hj : j ≤ u.length) :
    (substr u i j).length = j - i := by
  simp only [substr, List.length_take, List.length_drop]
  omega

theorem substr_zero_length {u : Dna} (h : u.length ≤ j) (hi : i = 0) :
    substr u i j = u := by
  subst hi
  simp only [substr, List.drop_zero, Nat.sub_zero]
  exact List.take_of_length_le h

theorem windows_self {u : Dna} {k : Nat} (h : u.length = k) :
    windows u k = [u] := by
  unfold windows
  rw [h, Nat.sub_self]
  simp only [List.range_succ, List.range_zero, List.nil_append, List.map_cons,
    List.map_nil]
  rw [substr_zero_length (by omega) rfl]

theorem mem_windows_iff {u w : Dna} {k : Nat} :
    w ∈ windows u k ↔ ∃ i, i < u.length - k + 1 ∧ w = substr u i (i + k) := by
  unfold windows
  simp only [List.mem_map, List.mem_range]
  constructor
  · rintro ⟨i, hi, rfl⟩
    exact ⟨i, hi, rfl⟩
  · rintro ⟨i, hi, rfl⟩
    exact ⟨i, hi, rfl⟩

-- ---------------------------------------------------------------------
-- Lemmas about Graph::supp
-- ---------------------------------------------------------------------

theorem supp_compute {u : Dna} {k : Nat} {T : UMap Nat}
    (hmiss : lookupU T u = none) (hval : uValid u = true) (hlen : k ≤ u.length) :
    Graph.supp u k T =
      some (minWinVals T k u, insertU T u (minWinVals T k u)) := by
  unfold Graph.supp
  rw [hmiss]
  rw [if_neg (by omega)]
  have hcoll : collectO ((List.range (u.length - k + 1)).map
      (fun i => (asUnitig (substr u i (i + k))).map
        (fun w => (lookupU T w).getD 0))) =
      some ((List.range (u.length - k + 1)).map
        (fun i => (lookupU T (substr u i (i + k))).getD 0)) := by
    apply collectO_map_eq_some
    intro i _
    rw [asUnitig_valid (uValid_substr hval i (i + k))]
    rfl
  rw [hcoll]
  have hmw : minWinVals T k u = minimumD ((List.range (u.length - k + 1)).map
      (fun i => (lookupU T (substr u i (i + k))).getD 0)) 0 := by
    unfold minWinVals windows
    rw [List.map_map]
    rfl
  rw [hmw]

theorem supp_hit {u : Dna} {k : Nat} {T : UMap Nat} {s : Nat}
    (h : lookupU T u = some s) : Graph.supp u k T = some (s, T) := by
  unfold Graph.supp
  rw [h]

-- ---------------------------------------------------------------------
-- Characterization of the seeding loops of Graph::close
-- ---------------------------------------------------------------------

theorem lookupU_seedSuppAux (nodes : List Node) (init : UMap Nat) (u : Dna) :
    lookupU (nodes.foldl (fun t n => insertU t n.kmer n.count) init) u =
      match nodes.reverse.find? (fun n => keyEq n.kmer u) with
      | some n => some n.count
      | none => lookupU init u := by
  induction nodes generalizing init with
  | nil => rfl
  | cons n rest ih =>
    rw [List.foldl_cons, ih, List.reverse_cons, List.find?_append]
    cases hf : rest.reverse.find? (fun x => keyEq x.kmer u)
    · simp only [Option.none_or]
      cases hk : keyEq n.kmer u
      · rw [List.find?_cons_of_neg _ (by simp [hk]), List.find?_nil]
        rw [lookupU_insertU]
        simp [hk]
      · rw [List.find?_cons_of_pos _ (by simp [hk])]
        rw [lookupU_insertU]
        simp [hk]
    · simp

theorem lookupU_seedClosedAux (nodes : List Node) (init : UMap Bool) (u : Dna) :
    lookupU (nodes.foldl (fun t n => insertU t n.kmer false) init) u =
      match nodes.reverse.find? (fun n => keyEq n.kmer u) with
      | some _ => some false
      | none => lookupU init u := by
  induction nodes generalizing init with
  | nil => rfl
  | cons n rest ih =>
    rw [List.foldl_cons, ih, List.reverse_cons, List.find?_append]
    cases hf : rest.reverse.find? (fun x => keyEq x.kmer u)
    · simp only [Option.none_or]
      cases hk : keyEq n.kmer u
      · rw [List.find?_cons_of_neg _ (by simp [hk]), List.find?_nil]
        rw [lookupU_insertU]
        simp [hk]
      · rw [List.find?_cons_of_pos _ (by simp [hk])]
        rw [lookupU_insertU]
        simp [hk]
    · simp

theorem lookupU_seedSupp (nodes : List Node) (u : Dna) :
    lookupU (seedSupp nodes) u =
      match nodes.reverse.find? (fun n => keyEq n.kmer u) with
      | some n => some n.count
      | none => none :=
  lookupU_seedSuppAux nodes [] u

theorem lookupU_seedClosed (nodes : List Node) (u : Dna) :
    lookupU (seedClosed nodes) u =
      match nodes.reverse.find? (fun n => keyEq n.kmer u) with
      | some _ => some false
      | none => none :=
  lookupU_seedClosedAux nodes [] u

theorem seedSupp_present {nodes : List Node} {n : Node} (hn : n ∈ nodes) :
    (lookupU (seedSupp nodes) n.kmer).isSome = true := by
  rw [lookupU_seedSupp]
  cases hf : nodes.reverse.find? (fun x => keyEq x.kmer n.kmer)
  · exfalso
    have := List.find?_eq_none.1 hf n (List.mem_reverse.2 hn)
    simp [keyEq_refl] at this
  · rfl

theorem seedClosed_present {nodes : List Node} {n : Node} (hn : n ∈ nodes) :
    (lookupU (seedClosed nodes) n.kmer).isSome = true := by
  rw [lookupU_seedClosed]
  cases hf : nodes.reverse.find? (fun x => keyEq x.kmer n.kmer)
  · exfalso
    have := List.find?_eq_none.1 hf n (List.mem_reverse.2 hn)
    simp [keyEq_refl] at this
  · rfl

theorem find?_reverse_last {l : List α} {p : α → Bool} {j : Nat} {x : α}
    (hj : l[j]? = some x) (hx : p x = true)
    (hafter : ∀ i y, j < i → l[i]? = some y → p y = false) :
    l.reverse.find? p = some x := by
  induction l generalizing j with
  | nil => simp at hj
  | cons a rest ih =>
    rw [List.reverse_cons, List.find?_append]
    cases j with
    | zero =>
      obtain rfl : a = x := by simpa using hj
      have hnone : rest.reverse.find? p = none := by
        rw [List.find?_eq_none]
        intro y hy
        rw [List.mem_reverse] at hy
        obtain ⟨i, hi⟩ := List.getElem?_of_mem hy
        have := hafter (i + 1) y (Nat.succ_pos i) (by simpa using hi)
        simp [this]
      rw [hnone]
      simp only [Option.none_or]
      rw [List.find?_cons_of_pos _ hx]
    | succ j2 =>
      have hj2 : rest[j2]? = some x := by simpa using hj
      have hafter2 : ∀ i y, j2 < i → rest[i]? = some y → p y = false := by
        intro i y hlt hget
        exact hafter (i + 1) y (by omega) (by simpa using hget)
      rw [ih hj2 hafter2]
      rfl

-- ---------------------------------------------------------------------
-- Claim theorems: unitig algebra, validation, support
-- ---------------------------------------------------------------------

/-- C2: on the single record with header ab:Z:5 2 5 and sequence ACGTAC
(so k = 4), Graph::close inserts exactly three closed unitigs with their
own counts into the output map: ACGT with 5, CGTA with 2, GTAC with 5. -/
theorem C2_scenario_c :
    Graph.fromRecords [recC] = some gC ∧ gC.k = 4 ∧
    gC.closePairs 10 = .ok
      [(['A', 'C', 'G', 'T'], 5), (['C', 'G', 'T', 'A'], 2),
       (['G', 'T', 'A', 'C'], 5)] := by
  refine ⟨by decide, by decide, by decide⟩

/-- C3 (amended): for a unitig u not in the memo with length at least k,
Graph::supp returns the minimum over the length-k substrings of u of their
values in the memo (a missing substring contributing 0) and stores it
under key u; the claimed return of 0 when the length of u is below k does
not happen, because the index arithmetic panics there instead (see the
counterexample). -/
theorem C3_supp_min_memo (u : Dna) (k : Nat) (T : UMap Nat)
    (hmiss : lookupU T u = none) (hval : uValid u = true)
    (hlen : k ≤ u.length) :
    Graph.supp u k T =
      some (minWinVals T k u, insertU T u (minWinVals T k u)) ∧
    (∀ w ∈ windows u k, minWinVals T k u ≤ (lookupU T w).getD 0) ∧
    (∃ w ∈ windows u k, minWinVals T k u = (lookupU T w).getD 0) := by
  refine ⟨supp_compute hmiss hval hlen, ?_, ?_⟩
  · intro w hw
    exact minimumD_le (List.mem_map_of_mem _ hw) 0
  · have hne : (windows u k).map (fun w => (lookupU T w).getD 0) ≠ [] := by
      unfold windows
      simp only [ne_eq, List.map_eq_nil_iff, List.range_eq_nil]
      omega
    have hmem := minimumD_mem hne 0
    obtain ⟨w, hw, hv⟩ := List.mem_map.1 hmem
    exact ⟨w, hw, hv.symm⟩

/-- C3 counterexample: with u of length 1, k = 3 and an empty memo, the
support call panics (none in the model, from the usize underflow in
u.len() - k + 1) instead of returning 0 as the claim states for lengths
below k. -/
theorem C3_supp_short_panics :
    lookupU ([] : UMap Nat) ['A'] = none ∧ (['A'] : Dna).length < 3 ∧
    Graph.supp ['A'] 3 [] = none := by
  refine ⟨rfl, by decide, by decide⟩

/-- C3 witness at a concrete input. -/
theorem C3_supp_min_memo_witness :
    lookupU ([] : UMap Nat) ['A', 'C', 'G'] = none ∧
    uValid ['A', 'C', 'G'] = true ∧ 2 ≤ (['A', 'C', 'G'] : Dna).length ∧
    (Graph.supp ['A', 'C', 'G'] 2 [] =
      some (minWinVals [] 2 ['A', 'C', 'G'],
        insertU [] ['A', 'C', 'G'] (minWinVals [] 2 ['A', 'C', 'G'])) ∧
    (∀ w ∈ windows ['A', 'C', 'G'] 2,
      minWinVals [] 2 ['A', 'C', 'G'] ≤ (lookupU ([] : UMap Nat) w).getD 0) ∧
    (∃ w ∈ windows ['A', 'C', 'G'] 2,
      minWinVals [] 2 ['A', 'C', 'G'] = (lookupU ([] : UMap Nat) w).getD 0)) :=
  ⟨rfl, by decide, by decide,
    C3_supp_min_memo ['A', 'C', 'G'] 2 [] rfl (by decide) (by decide)⟩

/-- C6: a valid sequence and its reverse complement build unitigs that
compare equal (PartialEq on normal forms) and hash equally (Hash on the
normal form). -/
theorem C6_strand_symmetry (s : Dna) (h : uValid s = true) :
    ∃ r, utils.rev_compl s = some r ∧ Unitig.eqU s r = some true ∧
      Unitig.hashN s = Unitig.hashN r := by
  refine ⟨rcT s, rev_compl_eq_some_rcT h, ?_, ?_⟩
  · unfold Unitig.eqU
    rw [norm_rcT s]
    obtain ⟨n, hn⟩ := Option.isSome_iff_exists.1 (norm_isSome_valid h)
    rw [hn]
    simp
  · unfold Unitig.hashN
    rw [norm_rcT s]

/-- C6 witness at a concrete input. -/
theorem C6_strand_symmetry_witness :
    uValid ['A', 'A', 'C'] = true ∧
    (∃ r, utils.rev_compl ['A', 'A', 'C'] = some r ∧
      Unitig.eqU ['A', 'A', 'C'] r = some true ∧
      Unitig.hashN ['A', 'A', 'C'] = Unitig.hashN r) :=
  ⟨by decide, C6_strand_symmetry ['A', 'A', 'C'] (by decide)⟩

/-- C7: when the overlap length min len - 1 equals k - 1 and the suffix of
a of that length equals the prefix of b, the concatenation succeeds and
its length is len a + len b - (k - 1). -/
theorem C7_concat_length (a b : Dna) (k : Nat) (ha : a ≠ []) (hb : b ≠ [])
    (hk : 1 ≤ k) (hov : min a.length b.length - 1 = k - 1)
    (hpre : a.drop (a.length - (min a.length b.length - 1)) =
      b.take (min a.length b.length - 1)) :
    ∃ r, Unitig.add a b = some r ∧
      r.length = a.length + b.length - (k - 1) := by
  have ha1 : 0 < a.length := List.length_pos.2 ha
  have hb1 : 0 < b.length := List.length_pos.2 hb
  refine ⟨a ++ b.drop (min a.length b.length - 1), ?_, ?_⟩
  · simp only [Unitig.add]
    rw [if_neg (by omega), if_pos hpre]
  · rw [List.length_append, List.length_drop]
    have hmb : min a.length b.length ≤ b.length := min_le_right _ _
    omega

/-- C7 witness at a concrete input. -/
theorem C7_concat_length_witness :
    (['A', 'C', 'G', 'T'] : Dna) ≠ [] ∧ (['C', 'G', 'T', 'A'] : Dna) ≠ [] ∧
    (1 : Nat) ≤ 4 ∧
    min (['A', 'C', 'G', 'T'] : Dna).length
        (['C', 'G', 'T', 'A'] : Dna).length - 1 = 4 - 1 ∧
    (∃ r, Unitig.add ['A', 'C', 'G', 'T'] ['C', 'G', 'T', 'A'] = some r ∧
      r.length = (['A', 'C', 'G', 'T'] : Dna).length +
        (['C', 'G', 'T', 'A'] : Dna).length - (4 - 1)) :=
  ⟨by decide, by decide, by decide, by decide,
    C7_concat_length ['A', 'C', 'G', 'T'] ['C', 'G', 'T', 'A'] 4
      (by decide) (by decide) (by decide) (by decide) (by decide)⟩

/-- C9: Unitig construction upper-cases its input, fails with the invalid
nucleotide error exactly when the upper-cased string has a character
outside ACGT (the reported character being such a character), and
otherwise succeeds with the upper-cased string as contents. -/
theorem C9_validation (s : Dna) :
    ((∃ c, Unitig.try_from s = .error c ∧ c ∈ toUpperSeq s ∧
        validNuc c = false) ↔
      ∃ c ∈ toUpperSeq s, validNuc c = false) ∧
    ((∀ c ∈ toUpperSeq s, validNuc c = true) →
      Unitig.try_from s = .ok (toUpperSeq s)) := by
  constructor
  · constructor
    · rintro ⟨c, _, hm, hv⟩
      exact ⟨c, hm, hv⟩
    · rintro ⟨c, hm, hv⟩
      cases hf : (toUpperSeq s).find? (fun x => !validNuc x) with
      | none =>
        exfalso
        have := List.find?_eq_none.1 hf c hm
        simp [hv] at this
      | some c0 =>
        refine ⟨c0, ?_, List.mem_of_find?_eq_some hf, ?_⟩
        · simp only [Unitig.try_from, hf]
        · have := List.find?_some hf
          simpa using this
  · intro hall
    have hf : (toUpperSeq s).find? (fun x => !validNuc x) = none := by
      rw [List.find?_eq_none]
      intro x hx
      simp [hall x hx]
    simp only [Unitig.try_from, hf]

/-- C9 witness at a concrete input. -/
theorem C9_validation_witness :
    ((∃ c, Unitig.try_from ['a', 'x'] = .error c ∧
        c ∈ toUpperSeq ['a', 'x'] ∧ validNuc c = false) ↔
      ∃ c ∈ toUpperSeq ['a', 'x'], validNuc c = false) ∧
    ((∀ c ∈ toUpperSeq ['a', 'x'], validNuc c = true) →
      Unitig.try_from ['a', 'x'] = .ok (toUpperSeq ['a', 'x'])) :=
  C9_validation ['a', 'x']

/-- C10: supp and is_closed are keyed by canonical-form equality, so any
sequence and its reverse complement read the same entry of either table;
and when nodes i and j (i before j) carry k-mers equal up to reverse
complement, j being the last node with that canonical k-mer, the seeding
loop leaves the count of node j in the shared entry (the later insert
overwrites the earlier one). -/
theorem C10_canonical_seeding (g : Graph) (i j : Nat) (ni nj : Node)
    (hij : i < j) (hi : g.nodes[i]? = some ni) (hj : g.nodes[j]? = some nj)
    (hkey : keyEq ni.kmer nj.kmer = true)
    (hlast : ∀ l nl, j < l → g.nodes[l]? = some nl →
      keyEq nl.kmer nj.kmer = false) :
    (∀ u : Dna,
      lookupU (seedSupp g.nodes) u = lookupU (seedSupp g.nodes) (rcT u) ∧
      lookupU (seedClosed g.nodes) u = lookupU (seedClosed g.nodes) (rcT u)) ∧
    lookupU (seedSupp g.nodes) ni.kmer = some nj.count := by
  constructor
  · intro u
    constructor
    · exact lookupU_congr (keyEq_symm (keyEq_rcT u))
    · exact lookupU_congr (keyEq_symm (keyEq_rcT u))
  · rw [lookupU_seedSupp]
    have hfind : g.nodes.reverse.find? (fun n => keyEq n.kmer ni.kmer) =
        some nj := by
      apply find?_reverse_last hj (keyEq_symm hkey)
      intro l nl hlt hget
      have hf := hlast l nl hlt hget
      cases hq : keyEq nl.kmer ni.kmer
      · rfl
      · exact absurd (keyEq_trans hq hkey) (by simp [hf])
    rw [hfind]

/-- C10 witness on a concrete two-node graph with reverse-complement
k-mers AACC and GGTT of counts 3 and 7. -/
theorem C10_canonical_seeding_witness :
    lookupU (seedSupp gW.nodes) ['A', 'A', 'C', 'C'] = some 7 ∧
    lookupU (seedSupp gW.nodes) ['G', 'G', 'T', 'T'] =
      lookupU (seedSupp gW.nodes) (rcT ['G', 'G', 'T', 'T']) := by
  have h := C10_canonical_seeding gW 0 1 (gW.nodes.get ⟨0, by decide⟩)
    (gW.nodes.get ⟨1, by decide⟩) (by decide) (by decide) (by decide)
    (by decide)
    (by
      intro l nl hlt hget
      obtain ⟨m, rfl⟩ : ∃ m, l = m + 2 := ⟨l - 2, by omega⟩
      simp [gW] at hget)
  exact ⟨h.2, (h.1 ['G', 'G', 'T', 'T']).1⟩

/-- C8: a successful run emits the collected (unitig, count) pairs sorted
by count ascending: the emitted list is a permutation of the output map
sorted so that the count sequence is non-decreasing, and the i-th count
lines up with the i-th emitted unitig (the pair list is the positionwise
zip of the two sinks). -/
theorem C8_output_order (g : Graph) (fuel : Nat) (out : List (Dna × Nat))
    (h : Graph.close g fuel = .ok out) :
    (∃ ps, Graph.closePairs g fuel = .ok ps ∧
      out = sortPairs (closedMapL ps) ∧ out.Perm (closedMapL ps)) ∧
    List.Sorted (fun a b : Dna × Nat => a.2 ≤ b.2) out ∧
    List.Sorted (· ≤ ·) (emitCounts out) ∧
    out = (emitFasta out).zip (emitCounts out) := by
  obtain ⟨ps, hps, rfl⟩ : ∃ ps, Graph.closePairs g fuel = .ok ps ∧
      out = sortPairs (closedMapL ps) := by
    unfold Graph.close at h
    cases hr : Graph.closePairs g fuel <;> rw [hr] at h <;>
      simp [PRes.map] at h
    exact ⟨_, rfl, h.symm⟩
  have hsorted : List.Sorted (fun a b : Dna × Nat => a.2 ≤ b.2)
      (sortPairs (closedMapL ps)) := by
    unfold sortPairs
    exact @List.sorted_insertionSort (Dna × Nat) (fun a b => a.2 ≤ b.2) _
      ⟨fun a b => Nat.le_total a.2 b.2⟩ ⟨fun a b c h1 h2 => le_trans h1 h2⟩ _
  refine ⟨⟨ps, hps, rfl, ?_⟩, hsorted, ?_, ?_⟩
  · exact List.perm_insertionSort _ _
  · unfold emitCounts
    exact List.Pairwise.map _ (fun a b hab => hab) hsorted
  · exact List.zip_of_prod rfl rfl

/-- C8 witness on the scenario C graph. -/
theorem C8_output_order_witness :
    Graph.close gC 10 = .ok
      [(['C', 'G', 'T', 'A'], 2), (['A', 'C', 'G', 'T'], 5),
       (['G', 'T', 'A', 'C'], 5)] ∧
    ((∃ ps, Graph.closePairs gC 10 = .ok ps ∧
      [(['C', 'G', 'T', 'A'], 2), (['A', 'C', 'G', 'T'], 5),
       (['G', 'T', 'A', 'C'], 5)] = sortPairs (closedMapL ps) ∧
      List.Perm [(['C', 'G', 'T', 'A'], 2), (['A', 'C', 'G', 'T'], 5),
       (['G', 'T', 'A', 'C'], 5)] (closedMapL ps)) ∧
    List.Sorted (fun a b : Dna × Nat => a.2 ≤ b.2)
      [(['C', 'G', 'T', 'A'], 2), (['A', 'C', 'G', 'T'], 5),
       (['G', 'T', 'A', 'C'], 5)] ∧
    List.Sorted (· ≤ ·) (emitCounts
      [(['C', 'G', 'T', 'A'], 2), (['A', 'C', 'G', 'T'], 5),
       (['G', 'T', 'A', 'C'], 5)]) ∧
    [(['C', 'G', 'T', 'A'], 2), (['A', 'C', 'G', 'T'], 5),
       (['G', 'T', 'A', 'C'], 5)] =
      (emitFasta [(['C', 'G', 'T', 'A'], 2), (['A', 'C', 'G', 'T'], 5),
       (['G', 'T', 'A', 'C'], 5)]).zip (emitCounts
      [(['C', 'G', 'T', 'A'], 2), (['A', 'C', 'G', 'T'], 5),
       (['G', 'T', 'A', 'C'], 5)])) :=
  ⟨by decide, C8_output_order gC 10 _ (by decide)⟩

-- ---------------------------------------------------------------------
-- Windows of a reverse complement
-- ---------------------------------------------------------------------

theorem substr_map (f : Char → Char) (u : Dna) (i j : Nat) :
    substr (u.map f) i j = (substr u i j).map f := by
  simp [substr, List.map_take, List.map_drop]

theorem substr_rcT {u : Dna} {i k : Nat} (h : i + k ≤ u.length) :
    substr (rcT u) i (i + k) =
      rcT (substr u (u.length - k - i) (u.length - i)) := by
  have hL : (u.map complT).length = u.length := List.length_map u complT
  unfold rcT
  rw [← substr_map]
  unfold substr
  rw [show i + k - i = k by omega]
  rw [List.drop_reverse, List.take_reverse]
  congr 1
  rw [List.length_take, List.drop_take]
  have h1 : min (List.length (List.map complT u) - i)
      (List.length (List.map complT u)) - k =
      List.length (List.map complT u) - i - k := by omega
  rw [h1]
  congr 1
  · omega
  · congr 1
    omega

theorem windows_rcT {u : Dna} {k : Nat} (hk : 1 ≤ k) (hku : k ≤ u.length) :
    windows (rcT u) k = ((windows u k).map rcT).reverse := by
  have hn : (rcT u).length = u.length := rcT_length u
  apply List.ext_getElem?
  intro i
  by_cases hi : i < u.length - k + 1
  · have hL : (windows (rcT u) k)[i]? = some (substr (rcT u) i (i + k)) := by
      unfold windows
      rw [List.getElem?_map, List.getElem?_range (by omega)]
      rfl
    have hlen : ((windows u k).map rcT).length = u.length - k + 1 := by
      unfold windows
      simp
    have hR : (((windows u k).map rcT).reverse)[i]? =
        some (rcT (substr u (u.length - k + 1 - 1 - i)
          (u.length - k + 1 - 1 - i + k))) := by
      rw [List.getElem?_reverse (by rw [hlen]; omega), hlen]
      unfold windows
      rw [List.map_map, List.getElem?_map, List.getElem?_range (by omega)]
      rfl
    have e1 : u.length - k + 1 - 1 - i = u.length - k - i := by omega
    have e2 : u.length - k + 1 - 1 - i + k = u.length - i := by omega
    rw [hL, hR, e2, e1, substr_rcT (by omega)]
  · have hL : (windows (rcT u) k)[i]? = none := by
      apply List.getElem?_eq_none
      unfold windows
      simp only [List.length_map, List.length_range]
      omega
    have hR : (((windows u k).map rcT).reverse)[i]? = none := by
      apply List.getElem?_eq_none
      unfold windows
      simp only [List.length_reverse, List.length_map, List.length_range]
      omega
    rw [hL, hR]

theorem minimumD_congr_mem {l1 l2 : List Nat} (h : ∀ x, x ∈ l1 ↔ x ∈ l2)
    (h1 : l1 ≠ []) (h2 : l2 ≠ []) (d : Nat) : minimumD l1 d = minimumD l2 d :=
  le_antisymm (minimumD_le ((h _).2 (minimumD_mem h2 d)) d)
    (minimumD_le ((h _).1 (minimumD_mem h1 d)) d)

theorem windows_ne_nil {u : Dna} {k : Nat} : windows u k ≠ [] := by
  unfold windows
  simp only [ne_eq, List.map_eq_nil_iff, List.range_eq_nil]
  omega

theorem minWinVals_rcT {T0 : UMap Nat} {k : Nat} {u : Dna} (hk : 1 ≤ k)
    (hku : k ≤ u.length) : minWinVals T0 k (rcT u) = minWinVals T0 k u := by
  unfold minWinVals
  rw [windows_rcT hk hku, List.map_reverse, List.map_map]
  have hcg : (windows u k).map ((fun w => (lookupU T0 w).getD 0) ∘ rcT) =
      (windows u k).map (fun w => (lookupU T0 w).getD 0) := by
    apply List.map_congr_left
    intro w _
    simp only [Function.comp_apply]
    rw [lookupU_congr (keyEq_rcT w)]
  rw [hcg]
  apply minimumD_congr_mem
  · intro x
    exact List.mem_reverse
  · simp only [ne_eq, List.reverse_eq_nil_iff, List.map_eq_nil_iff]
    exact windows_ne_nil
  · simp only [ne_eq, List.map_eq_nil_iff]
    exact windows_ne_nil

theorem windows_present_rcT {T0 : UMap Nat} {k : Nat} {u : Dna} (hk : 1 ≤ k)
    (hku : k ≤ u.length)
    (h : ∀ w ∈ windows u k, (lookupU T0 w).isSome = true) :
    ∀ w ∈ windows (rcT u) k, (lookupU T0 w).isSome = true := by
  intro w hw
  rw [windows_rcT hk hku] at hw
  simp only [List.mem_reverse, List.mem_map] at hw
  obtain ⟨w2, hw2, rfl⟩ := hw
  rw [lookupU_congr (keyEq_rcT w2)]
  exact h w2 hw2

-- ---------------------------------------------------------------------
-- The support-memo invariant
-- ---------------------------------------------------------------------

theorem keyEq_valid {a b : Dna} (ha : uValid a = true) (h : keyEq a b = true) :
    uValid b = true ∧ b.length = a.length := by
  have hn := keyEq_iff.1 h
  obtain ⟨na, hna⟩ := Option.isSome_iff_exists.1 (norm_isSome_valid ha)
  have hnb : utils.norm b = some na := by rw [← hn, hna]
  refine ⟨norm_some_valid hnb, ?_⟩
  rw [← norm_length hnb, norm_length hna]

theorem lookupU_seedSupp_char {nodes : List Node} {u : Dna} {v : Nat}
    (h : lookupU (seedSupp nodes) u = some v) :
    ∃ n ∈ nodes, keyEq n.kmer u = true ∧ v = n.count := by
  rw [lookupU_seedSupp] at h
  cases hf : nodes.reverse.find? (fun n => keyEq n.kmer u) <;> rw [hf] at h
  · cases h
  · next n0 =>
    refine ⟨n0, List.mem_reverse.1 (List.mem_of_find?_eq_some hf),
      by simpa using List.find?_some hf, ?_⟩
    injection h with h
    exact h.symm

theorem minimumD_singleton (x d : Nat) : minimumD [x] d = x := rfl

theorem suppInv_seed {nodes : List Node} {k : Nat}
    (hN : ∀ n ∈ nodes, uValid n.kmer = true ∧ n.kmer.length = k) :
    SuppInv (seedSupp nodes) k (seedSupp nodes) := by
  constructor
  · exact fun u v h => h
  · intro u v h
    obtain ⟨n, hn, hkey, hv⟩ := lookupU_seedSupp_char h
    obtain ⟨hval, hklen⟩ := hN n hn
    obtain ⟨hvu, hlu⟩ := keyEq_valid hval hkey
    have hul : u.length = k := by rw [hlu, hklen]
    refine ⟨hvu, le_of_eq hul.symm, ?_, ?_⟩
    · rw [windows_self hul]
      intro w hw
      simp only [List.mem_singleton] at hw
      subst hw
      rw [h]
      rfl
    · unfold minWinVals
      rw [windows_self hul]
      simp only [List.map_cons, List.map_nil]
      rw [h]
      rfl

theorem supp_step {T0 T : UMap Nat} {k : Nat} {m : Dna} (hk : 1 ≤ k)
    (hInv : SuppInv T0 k T) (hval : uValid m = true) (hlen : k ≤ m.length)
    (hwins : ∀ w ∈ windows m k, (lookupU T0 w).isSome = true) :
    ∃ T2, Graph.supp m k T = some (minWinVals T0 k m, T2) ∧
      SuppInv T0 k T2 ∧
      lookupU T2 m = some (minWinVals T0 k m) ∧
      (∀ u v, lookupU T u = some v → lookupU T2 u = some v) := by
  cases hm : lookupU T m with
  | some s =>
    have hv := (hInv.vals m s hm).2.2.2
    refine ⟨T, ?_, hInv, ?_, fun u v h => h⟩
    · rw [← hv]
      exact supp_hit hm
    · rw [hm, hv]
  | none =>
    have hcomp := supp_compute hm hval hlen
    have htrans : minWinVals T k m = minWinVals T0 k m := by
      unfold minWinVals
      congr 1
      apply List.map_congr_left
      intro w hw
      obtain ⟨v, hv⟩ := Option.isSome_iff_exists.1 (hwins w hw)
      rw [hv, hInv.ext w v hv]
    refine ⟨insertU T m (minWinVals T0 k m), ?_, ?_, ?_, ?_⟩
    · rw [hcomp, htrans]
    · constructor
      · intro u v h
        exact lookupU_insertU_pres hm (hInv.ext u v h)
      · intro u v h
        rw [lookupU_insertU] at h
        by_cases hkey : keyEq m u = true
        · rw [if_pos hkey] at h
          injection h with h
          subst h
          rcases norm_eq_cases hval (keyEq_iff.1 hkey) with rfl | rfl
          · exact ⟨hval, hlen, hwins, rfl⟩
          · refine ⟨uValid_rcT hval, ?_,
              windows_present_rcT hk hlen hwins, ?_⟩
            · rw [rcT_length]
              exact hlen
            · rw [minWinVals_rcT hk hlen]
        · rw [if_neg hkey] at h
          exact hInv.vals u v h
    · rw [lookupU_insertU, if_pos (keyEq_refl m)]
    · intro u v h
      exact lookupU_insertU_pres hm h

-- ---------------------------------------------------------------------
-- Concatenation characterization and windows of an extended unitig
-- ---------------------------------------------------------------------

theorem add_some {a b m2 : Dna} (h : Unitig.add a b = some m2) :
    min a.length b.length ≠ 0 ∧
    a.drop (a.length - (min a.length b.length - 1)) =
      b.take (min a.length b.length - 1) ∧
    m2 = a ++ b.drop (min a.length b.length - 1) := by
  simp only [Unitig.add] at h
  by_cases h0 : min a.length b.length = 0
  · rw [if_pos h0] at h
    cases h
  · rw [if_neg h0] at h
    by_cases hov : a.drop (a.length - (min a.length b.length - 1)) =
        b.take (min a.length b.length - 1)
    · rw [if_pos hov] at h
      injection h with h
      exact ⟨h0, hov, h.symm⟩
    · rw [if_neg hov] at h
      cases h

theorem substr_append_left {u t : Dna} {i j : Nat} (hj : j ≤ u.length) :
    substr (u ++ t) i j = substr u i j := by
  unfold substr
  by_cases hi : i ≤ u.length
  · rw [List.drop_append_of_le_length hi,
      List.take_append_of_le_length (by rw [List.length_drop]; omega)]
  · have h0 : j - i = 0 := by omega
    rw [h0]
    simp

theorem windows_append_right {m kmer : Dna} {k : Nat} (hk : 1 ≤ k)
    (hm : k ≤ m.length) (hkl : kmer.length = k)
    (hov : m.drop (m.length - (k - 1)) = kmer.take (k - 1)) :
    windows (m ++ kmer.drop (k - 1)) k = windows m k ++ [kmer] := by
  have hlen2 : (m ++ kmer.drop (k - 1)).length = m.length + 1 := by
    rw [List.length_append, List.length_drop, hkl]
    omega
  unfold windows
  rw [hlen2, show m.length + 1 - k + 1 = (m.length - k + 1) + 1 by omega,
    List.range_succ, List.map_append]
  congr 1
  · apply List.map_congr_left
    intro i hi
    rw [List.mem_range] at hi
    exact substr_append_left (by omega)
  · simp only [List.map_cons, List.map_nil]
    congr 1
    unfold substr
    rw [show m.length - k + 1 + k - (m.length - k + 1) = k by omega]
    rw [List.drop_append_of_le_length (by omega)]
    rw [show m.length - k + 1 = m.length - (k - 1) by omega, hov,
      List.take_append_drop]
    rw [List.take_of_length_le (by rw [hkl])]

theorem windows_cons_left {m kmer : Dna} {k : Nat} (hk : 1 ≤ k)
    (hm : k ≤ m.length) (hkl : kmer.length = k)
    (hov : kmer.drop 1 = m.take (k - 1)) :
    windows (kmer ++ m.drop (k - 1)) k = kmer :: windows m k := by
  have hlen1 : (kmer.take 1).length = 1 := by
    rw [List.length_take]
    omega
  have hsplit : kmer ++ m.drop (k - 1) = kmer.take 1 ++ m := by
    conv_lhs => rw [← List.take_append_drop 1 kmer]
    rw [List.append_assoc, hov, List.take_append_drop]
  rw [hsplit]
  unfold windows
  have hlen2 : (kmer.take 1 ++ m).length = m.length + 1 := by
    rw [List.length_append, hlen1]
    omega
  rw [hlen2, show m.length + 1 - k + 1 = (m.length - k + 1) + 1 by omega,
    List.range_succ_eq_map]
  simp only [List.map_cons, List.map_map]
  congr 1
  · unfold substr
    rw [List.drop_zero, Nat.zero_add, Nat.sub_zero]
    rw [show k = (kmer.take 1).length + (k - 1) by rw [hlen1]; omega,
      List.take_append, ← hov, List.take_append_drop]
  · apply List.map_congr_left
    intro i _
    simp only [Function.comp_apply]
    unfold substr
    have hd : (kmer.take 1 ++ m).drop (i + 1) = m.drop i := by
      rw [show i + 1 = (kmer.take 1).length + i by rw [hlen1]; omega]
      exact List.drop_append i
    rw [hd, show i + 1 + k - (i + 1) = k by omega,
      show i + k - i = k by omega]

-- ---------------------------------------------------------------------
-- Characterization of the edge scan of Graph::closure
-- ---------------------------------------------------------------------

theorem findExt_some {nodes : List Node} {m : Dna} {d : Bool} {s : Nat} :
    ∀ {edges : List Edge} {node : Node} {kmer : Dna} {c : Nat} {e : Bool},
    findExt nodes m d s edges = some (some (node, kmer, c, e)) →
    (∃ ed ∈ edges, ed.start = d ∧ ed.«end» = e ∧
      nodes[ed.«to»]? = some node) ∧
    kmer = strand node e ∧ c = node.count ∧ s ≤ c := by
  intro edges
  induction edges with
  | nil =>
    intro node kmer c e h
    simp [findExt] at h
  | cons ed rest ih =>
    intro node kmer c e h
    simp only [findExt] at h
    split at h
    · obtain ⟨⟨ed2, hmem, hrest⟩, hother⟩ := ih h
      exact ⟨⟨ed2, List.mem_cons_of_mem ed hmem, hrest⟩, hother⟩
    · next hst0 =>
      have hst : ed.start = d := not_not.mp hst0
      split at h
      · cases h
      · next nd hn =>
        split at h
        · obtain ⟨⟨ed2, hmem, hrest⟩, hother⟩ := ih h
          exact ⟨⟨ed2, List.mem_cons_of_mem ed hmem, hrest⟩, hother⟩
        · split at h
          · next hge =>
            simp only [Option.some.injEq, Prod.mk.injEq] at h
            obtain ⟨rfl, rfl, rfl, rfl⟩ := h
            exact ⟨⟨ed, List.mem_cons_self ed rest, hst, rfl, hn⟩, rfl, rfl,
              hge⟩
          · obtain ⟨⟨ed2, hmem, hrest⟩, hother⟩ := ih h
            exact ⟨⟨ed2, List.mem_cons_of_mem ed hmem, hrest⟩, hother⟩

-- ---------------------------------------------------------------------
-- Invariant of Graph::closure
-- ---------------------------------------------------------------------

theorem closure_spec (g : Graph) (hk : 1 ≤ g.k)
    (hN : ∀ n ∈ g.nodes, uValid n.kmer = true ∧ n.kmer.length = g.k ∧
      n.complement = rcT n.kmer) :
    ∀ fuel m first last st mf stf,
    SuppInv (seedSupp g.nodes) g.k st.supp →
    uValid m = true → g.k ≤ m.length →
    (∀ w ∈ windows m g.k, (lookupU (seedSupp g.nodes) w).isSome = true) →
    Graph.closure g g.k fuel m first last st = .ok (mf, stf) →
    SuppInv (seedSupp g.nodes) g.k stf.supp ∧
    uValid mf = true ∧ g.k ≤ mf.length ∧
    (∀ w ∈ windows mf g.k, (lookupU (seedSupp g.nodes) w).isSome = true) ∧
    lookupU stf.supp mf = some (minWinVals (seedSupp g.nodes) g.k mf) ∧
    (∀ u, (lookupU st.is_closed u).isSome = true →
      (lookupU stf.is_closed u).isSome = true) := by
  intro fuel
  induction fuel with
  | zero =>
    intro m first last st mf stf _ _ _ _ hok
    simp [Graph.closure] at hok
  | succ fuel ih =>
    intro m first last st mf stf hInv hval hlen hwins hok
    obtain ⟨T2, hsupp, hInv2, hlook2, hpres2⟩ :=
      supp_step hk hInv hval hlen hwins
    simp only [Graph.closure] at hok
    split at hok
    · cases hok
    · next s T heq =>
      rw [hsupp] at heq
      injection heq with heq
      injection heq with h1 h2
      subst h1
      subst h2
      split at hok
      · cases hok
      · -- right extension succeeded
        next node kmer c e hfind =>
        obtain ⟨⟨ed, hed, hst, hend, hn⟩, hkmer, hc, hsc⟩ := findExt_some hfind
        have hnode : node ∈ g.nodes := List.getElem?_mem hn
        obtain ⟨hkval0, hklen0, hcomp0⟩ := hN node hnode
        have hkmerlen : kmer.length = g.k := by
          rw [hkmer]
          cases e
          · unfold strand
            rw [if_neg (by simp), hcomp0, rcT_length, hklen0]
          · unfold strand
            rw [if_pos rfl, hklen0]
        have hkmerval : uValid kmer = true := by
          rw [hkmer]
          cases e
          · unfold strand
            rw [if_neg (by simp), hcomp0]
            exact uValid_rcT hkval0
          · unfold strand
            rw [if_pos rfl]
            exact hkval0
        have hkpres : (lookupU (seedSupp g.nodes) kmer).isSome = true := by
          rw [hkmer]
          cases e
          · unfold strand
            rw [if_neg (by simp), hcomp0,
              lookupU_congr (keyEq_rcT node.kmer)]
            exact seedSupp_present hnode
          · unfold strand
            rw [if_pos rfl]
            exact seedSupp_present hnode
        split at hok
        · cases hok
        · next m2 hadd =>
          obtain ⟨h0, hov, hm2⟩ := add_some hadd
          have hcommon : min m.length kmer.length - 1 = g.k - 1 := by
            rw [hkmerlen, min_eq_right hlen]
          rw [hcommon] at hov hm2
          have hwin2 : windows m2 g.k = windows m g.k ++ [kmer] := by
            rw [hm2]
            exact windows_append_right hk hlen hkmerlen hov
          have hval2 : uValid m2 = true := by
            rw [hm2]
            exact uValid_append hval (uValid_drop hkmerval _)
          have hlen2 : g.k ≤ m2.length := by
            rw [hm2, List.length_append]
            omega
          have hwins2 : ∀ w ∈ windows m2 g.k,
              (lookupU (seedSupp g.nodes) w).isSome = true := by
            rw [hwin2]
            intro w hw
            rcases List.mem_append.1 hw with hw | hw
            · exact hwins w hw
            · simp only [List.mem_singleton] at hw
              subst hw
              exact hkpres
          by_cases hcs : c = minWinVals (seedSupp g.nodes) g.k m
          · rw [if_pos hcs] at hok
            obtain ⟨D1, D2, D3, D4, D5, D6⟩ :=
              ih m2 first (node, e) _ mf stf hInv2 hval2 hlen2 hwins2 hok
            exact ⟨D1, D2, D3, D4, D5,
              fun u hu => D6 u (lookupU_insertU_isSome hu)⟩
          · rw [if_neg hcs] at hok
            obtain ⟨D1, D2, D3, D4, D5, D6⟩ :=
              ih m2 first (node, e) _ mf stf hInv2 hval2 hlen2 hwins2 hok
            exact ⟨D1, D2, D3, D4, D5, fun u hu => D6 u hu⟩
      · -- no right extension: try the left
        split at hok
        · cases hok
        · next node kmer c e hfind =>
          obtain ⟨⟨ed, hed, hst, hend, hn⟩, hkmer, hc, hsc⟩ :=
            findExt_some hfind
          have hnode : node ∈ g.nodes := List.getElem?_mem hn
          obtain ⟨hkval0, hklen0, hcomp0⟩ := hN node hnode
          have hkmerlen : kmer.length = g.k := by
            rw [hkmer]
            cases e
            · unfold strand
              rw [if_neg (by simp), hcomp0, rcT_length, hklen0]
            · unfold strand
              rw [if_pos rfl, hklen0]
          have hkmerval : uValid kmer = true := by
            rw [hkmer]
            cases e
            · unfold strand
              rw [if_neg (by simp), hcomp0]
              exact uValid_rcT hkval0
            · unfold strand
              rw [if_pos rfl]
              exact hkval0
          have hkpres : (lookupU (seedSupp g.nodes) kmer).isSome = true := by
            rw [hkmer]
            cases e
            · unfold strand
              rw [if_neg (by simp), hcomp0,
                lookupU_congr (keyEq_rcT node.kmer)]
              exact seedSupp_present hnode
            · unfold strand
              rw [if_pos rfl]
              exact seedSupp_present hnode
          split at hok
          · cases hok
          · next m2 hadd =>
            obtain ⟨h0, hov, hm2⟩ := add_some hadd
            have hcommon : min kmer.length m.length - 1 = g.k - 1 := by
              rw [hkmerlen, min_eq_left hlen]
            rw [hcommon] at hov hm2
            have hov2 : kmer.drop 1 = m.take (g.k - 1) := by
              rw [← hov]
              congr 1
              omega
            have hwin2 : windows m2 g.k = kmer :: windows m g.k := by
              rw [hm2]
              exact windows_cons_left hk hlen hkmerlen hov2
            have hval2 : uValid m2 = true := by
              rw [hm2]
              exact uValid_append hkmerval (uValid_drop hval _)
            have hlen2 : g.k ≤ m2.length := by
              rw [hm2, List.length_append, hkmerlen]
              omega
            have hwins2 : ∀ w ∈ windows m2 g.k,
                (lookupU (seedSupp g.nodes) w).isSome = true := by
              rw [hwin2]
              intro w hw
              rcases List.mem_cons.1 hw with hw | hw
              · subst hw
                exact hkpres
              · exact hwins w hw
            by_cases hcs : c = minWinVals (seedSupp g.nodes) g.k m
            · rw [if_pos hcs] at hok
              obtain ⟨D1, D2, D3, D4, D5, D6⟩ :=
                ih m2 (node, e) last _ mf stf hInv2 hval2 hlen2 hwins2 hok
              exact ⟨D1, D2, D3, D4, D5,
                fun u hu => D6 u (lookupU_insertU_isSome hu)⟩
            · rw [if_neg hcs] at hok
              obtain ⟨D1, D2, D3, D4, D5, D6⟩ :=
                ih m2 (node, e) last _ mf stf hInv2 hval2 hlen2 hwins2 hok
              exact ⟨D1, D2, D3, D4, D5, fun u hu => D6 u hu⟩
        · -- neither side extends: terminate
          simp only [PRes.ok.injEq, Prod.mk.injEq] at hok
          obtain ⟨rfl, rfl⟩ := hok
          exact ⟨hInv2, hval, hlen, hwins, hlook2,
            fun u hu => lookupU_insertU_isSome hu⟩

-- ---------------------------------------------------------------------
-- The two trimming loops of Graph::shrink
-- ---------------------------------------------------------------------

theorem substr_substr {u : Dna} {a b i k : Nat} (h : i + k ≤ b - a) :
    substr (substr u a b) i (i + k) = substr u (a + i) (a + i + k) := by
  unfold substr
  rw [show i + k - i = k by omega, show a + i + k - (a + i) = k by omega]
  rw [List.drop_take, List.drop_drop, List.take_take,
    min_eq_left (by omega : k ≤ b - a - i)]

theorem minimumD_eq_of {l : List Nat} {s : Nat} (hmem : s ∈ l)
    (hle : ∀ x ∈ l, s ≤ x) : minimumD l 0 = s :=
  le_antisymm (minimumD_le hmem 0)
    (hle _ (minimumD_mem (List.ne_nil_of_mem hmem) 0))

theorem shrinkA_eq (u : Dna) (k : Nat) (T : UMap Nat) (s b p : Nat)
    (F : Nat → Nat) :
    ∀ fuel a, a ≤ p → p < a + fuel → p + k ≤ b →
    (∀ i, a ≤ i → i ≤ p →
      (asUnitig (substr u i (i + k))).bind (lookupU T) = some (F i)) →
    (∀ i, a ≤ i → i < p → s < F i) → ¬ s < F p →
    shrinkA u k T s b fuel a = some p := by
  intro fuel
  induction fuel with
  | zero =>
    intro a h1 h2
    omega
  | succ fuel ih =>
    intro a ha hpf hpb hlook hgt hstop
    by_cases hap : a = p
    · subst hap
      simp only [shrinkA]
      by_cases hcond : a + k < b
      · rw [if_pos hcond, hlook a le_rfl le_rfl]
        show (if s < F a then shrinkA u k T s b fuel (a + 1) else some a) =
          some a
        rw [if_neg hstop]
      · rw [if_neg hcond]
    · have halt : a < p := by omega
      simp only [shrinkA]
      rw [if_pos (by omega : a + k < b), hlook a le_rfl (by omega)]
      show (if s < F a then shrinkA u k T s b fuel (a + 1) else some a) =
        some p
      rw [if_pos (hgt a le_rfl halt)]
      exact ih (a + 1) (by omega) (by omega) hpb
        (fun i h1 h2 => hlook i (by omega) h2)
        (fun i h1 h2 => hgt i (by omega) h2) hstop

theorem shrinkB_eq (u : Dna) (k : Nat) (T : UMap Nat) (s q n : Nat)
    (F : Nat → Nat) (hk : 1 ≤ k) :
    ∀ fuel b, q + k ≤ b → b ≤ n → b < q + k + fuel →
    (∀ j, q ≤ j → j + k ≤ n →
      (asUnitig (substr u j (j + k))).bind (lookupU T) = some (F j)) →
    (∀ j, q < j → j + k ≤ n → s < F j) → ¬ s < F q →
    shrinkB u k T s fuel b = some (q + k) := by
  intro fuel
  induction fuel with
  | zero =>
    intro b h1 h2 h3
    omega
  | succ fuel ih =>
    intro b hb1 hb2 hb3 hlook hgt hstop
    simp only [shrinkB]
    rw [if_pos (by omega : k ≤ b)]
    have hsub : substr u (b - k) b = substr u (b - k) (b - k + k) := by
      congr 1
      omega
    rw [hsub, hlook (b - k) (by omega) (by omega)]
    show (if s < F (b - k) then
        (if b = 0 then none else shrinkB u k T s fuel (b - 1))
      else some b) = some (q + k)
    by_cases hbq : b = q + k
    · have hbk : b - k = q := by omega
      rw [hbk, if_neg hstop, hbq]
    · have hgtb : s < F (b - k) := hgt (b - k) (by omega) (by omega)
      rw [if_pos hgtb, if_neg (by omega : ¬ b = 0)]
      exact ih (b - 1) (by omega) (by omega) (by omega) hlook hgt hstop

theorem shrink_spec {T0 T : UMap Nat} {k : Nat} {mf : Dna}
    (hk : 1 ≤ k) (hInv : SuppInv T0 k T) (hInv0 : SuppInv T0 k T0)
    (hval : uValid mf = true) (hlen : k ≤ mf.length)
    (hwins : ∀ w ∈ windows mf k, (lookupU T0 w).isSome = true)
    (hlook : lookupU T mf = some (minWinVals T0 k mf)) :
    ∃ u2, Graph.shrink mf k T = some (u2, minWinVals T0 k mf) ∧
      u2 ≠ [] ∧ k ≤ u2.length ∧ uValid u2 = true ∧
      lookupU T0 (u2.take k) = some (minWinVals T0 k mf) ∧
      lookupU T0 (u2.drop (u2.length - k)) = some (minWinVals T0 k mf) ∧
      (∀ w ∈ windows u2 k, ∃ v, lookupU T0 w = some v ∧
        minWinVals T0 k mf ≤ v) ∧
      (∃ w ∈ windows u2 k, lookupU T0 w = some (minWinVals T0 k mf)) ∧
      (∃ T3, Graph.supp u2 k T0 = some (minWinVals T0 k mf, T3)) := by
  set F : Nat → Nat :=
    fun i => (lookupU T0 (substr mf i (i + k))).getD 0 with hF
  have hwinmem : ∀ i, i < mf.length - k + 1 →
      substr mf i (i + k) ∈ windows mf k :=
    fun i hi => mem_windows_iff.2 ⟨i, hi, rfl⟩
  have hFle : ∀ i, i < mf.length - k + 1 → minWinVals T0 k mf ≤ F i := by
    intro i hi
    exact minimumD_le (List.mem_map_of_mem _ (hwinmem i hi)) 0
  have hFval : ∀ i, i < mf.length - k + 1 → ∃ v,
      lookupU T0 (substr mf i (i + k)) = some v ∧ F i = v := by
    intro i hi
    obtain ⟨v, hv⟩ := Option.isSome_iff_exists.1 (hwins _ (hwinmem i hi))
    refine ⟨v, hv, ?_⟩
    simp only [hF, hv, Option.getD_some]
  have hexists : ∃ i, i < mf.length - k + 1 ∧ F i = minWinVals T0 k mf := by
    have hne : (windows mf k).map (fun w => (lookupU T0 w).getD 0) ≠ [] := by
      simp only [ne_eq, List.map_eq_nil_iff]
      exact windows_ne_nil
    have hmem : minWinVals T0 k mf ∈
        (windows mf k).map (fun w => (lookupU T0 w).getD 0) :=
      minimumD_mem hne 0
    obtain ⟨w, hw, hv⟩ := List.mem_map.1 hmem
    obtain ⟨i, hi, rfl⟩ := mem_windows_iff.1 hw
    exact ⟨i, hi, hv⟩
  have hexists2 : ∃ j, j < mf.length - k + 1 ∧
      F (mf.length - k - j) = minWinVals T0 k mf := by
    obtain ⟨i, hi, hFi⟩ := hexists
    refine ⟨mf.length - k - i, by omega, ?_⟩
    rw [show mf.length - k - (mf.length - k - i) = i by omega]
    exact hFi
  set p := Nat.find hexists with hpdef
  obtain ⟨hp1, hp2⟩ := Nat.find_spec hexists
  set j0 := Nat.find hexists2 with hj0def
  obtain ⟨hq1, hq2⟩ := Nat.find_spec hexists2
  set q := mf.length - k - j0 with hqdef
  have hqn : q ≤ mf.length - k := by omega
  have hgtA : ∀ i, i < p → minWinVals T0 k mf < F i := by
    intro i hi
    have hmin := Nat.find_min hexists hi
    have hne : F i ≠ minWinVals T0 k mf := by
      intro hcon
      exact hmin ⟨by omega, hcon⟩
    have hle := hFle i (by omega)
    omega
  have hqmax : ∀ i, q < i → i ≤ mf.length - k →
      minWinVals T0 k mf < F i := by
    intro i hi1 hi2
    have hj : mf.length - k - i < j0 := by omega
    have hmin := Nat.find_min hexists2 hj
    rw [show mf.length - k - (mf.length - k - i) = i by omega] at hmin
    have hne : F i ≠ minWinVals T0 k mf := by
      intro hcon
      exact hmin ⟨by omega, hcon⟩
    have hle := hFle i (by omega)
    omega
  have hpq : p ≤ q := Nat.find_min' hexists ⟨by omega, hq2⟩
  have hlookT : ∀ i, i + k ≤ mf.length →
      (asUnitig (substr mf i (i + k))).bind (lookupU T) = some (F i) := by
    intro i hi
    rw [asUnitig_valid (uValid_substr hval i (i + k)), Option.some_bind]
    obtain ⟨v, hv, hFv⟩ := hFval i (by omega)
    rw [hInv.ext _ v hv, hFv]
  have hshrA : shrinkA mf k T (minWinVals T0 k mf) mf.length
      (mf.length + 1) 0 = some p :=
    shrinkA_eq mf k T (minWinVals T0 k mf) mf.length p F (mf.length + 1) 0
      (Nat.zero_le p) (by omega) (by omega)
      (fun i _ hi => hlookT i (by omega))
      (fun i _ hi => hgtA i hi)
      (by rw [hp2]; exact lt_irrefl _)
  have hshrB : shrinkB mf k T (minWinVals T0 k mf) (mf.length + 2)
      mf.length = some (q + k) :=
    shrinkB_eq mf k T (minWinVals T0 k mf) q mf.length F hk
      (mf.length + 2) mf.length (by omega) le_rfl (by omega)
      (fun j _ hj => hlookT j hj)
      (fun j h1 h2 => hqmax j h1 (by omega))
      (by rw [hq2]; exact lt_irrefl _)
  have hvalu2 : uValid (substr mf p (q + k)) = true :=
    uValid_substr hval p (q + k)
  have hcalc : Graph.shrink mf k T =
      some (substr mf p (q + k), minWinVals T0 k mf) := by
    unfold Graph.shrink
    rw [hlook]
    show (match shrinkA mf k T (minWinVals T0 k mf) mf.length
        (mf.length + 1) 0 with
      | none => none
      | some a =>
        match shrinkB mf k T (minWinVals T0 k mf) (mf.length + 2)
            mf.length with
        | none => none
        | some b => (asUnitig (substr mf a b)).map
            (fun w => (w, minWinVals T0 k mf))) = _
    rw [hshrA]
    show (match shrinkB mf k T (minWinVals T0 k mf) (mf.length + 2)
        mf.length with
      | none => none
      | some b => (asUnitig (substr mf p b)).map
          (fun w => (w, minWinVals T0 k mf))) = _
    rw [hshrB]
    show (asUnitig (substr mf p (q + k))).map
        (fun w => (w, minWinVals T0 k mf)) = _
    rw [asUnitig_valid hvalu2]
    rfl
  have hu2len : (substr mf p (q + k)).length = q + k - p :=
    substr_length (by omega)
  have hwin_u2 : ∀ j, j ≤ q - p →
      substr (substr mf p (q + k)) j (j + k) =
        substr mf (p + j) (p + j + k) :=
    fun j hj => substr_substr (by omega)
  have htake : (substr mf p (q + k)).take k = substr mf p (p + k) := by
    have h0 := hwin_u2 0 (by omega)
    rw [show (0 : Nat) + k = k by omega] at h0
    rw [show p + 0 = p by omega] at h0
    rw [← h0]
    unfold substr
    rw [List.drop_zero, Nat.sub_zero]
  have hdrop : (substr mf p (q + k)).drop
      ((substr mf p (q + k)).length - k) = substr mf q (q + k) := by
    rw [hu2len, show q + k - p - k = q - p by omega]
    have hj := hwin_u2 (q - p) (by omega)
    rw [show p + (q - p) = q by omega] at hj
    rw [← hj]
    show (substr mf p (q + k)).drop (q - p) =
      ((substr mf p (q + k)).drop (q - p)).take (q - p + k - (q - p))
    rw [show q - p + k - (q - p) = k by omega]
    rw [List.take_of_length_le (by rw [List.length_drop, hu2len]; omega)]
  have hlkp : lookupU T0 (substr mf p (p + k)) =
      some (minWinVals T0 k mf) := by
    obtain ⟨v, hv, hFv⟩ := hFval p (by omega)
    rw [hv, ← hFv, hp2]
  have hlkq : lookupU T0 (substr mf q (q + k)) =
      some (minWinVals T0 k mf) := by
    obtain ⟨v, hv, hFv⟩ := hFval q (by omega)
    rw [hv, ← hFv, hq2]
  have hwinsu2 : ∀ w ∈ windows (substr mf p (q + k)) k, ∃ v,
      lookupU T0 w = some v ∧ minWinVals T0 k mf ≤ v := by
    intro w hw
    obtain ⟨j, hj, rfl⟩ := mem_windows_iff.1 hw
    rw [hu2len] at hj
    rw [hwin_u2 j (by omega)]
    obtain ⟨v, hv, hFv⟩ := hFval (p + j) (by omega)
    refine ⟨v, hv, ?_⟩
    rw [← hFv]
    exact hFle (p + j) (by omega)
  have hmemu2 : substr mf p (p + k) ∈ windows (substr mf p (q + k)) k := by
    apply mem_windows_iff.2
    refine ⟨0, by rw [hu2len]; omega, ?_⟩
    have h0 := hwin_u2 0 (by omega)
    rw [show p + 0 = p by omega] at h0
    exact h0.symm
  have hminu2 : minWinVals T0 k (substr mf p (q + k)) =
      minWinVals T0 k mf := by
    unfold minWinVals
    apply minimumD_eq_of
    · apply List.mem_map.2
      refine ⟨substr mf p (p + k), hmemu2, ?_⟩
      rw [hlkp]
      rfl
    · intro x hx
      obtain ⟨w, hw, rfl⟩ := List.mem_map.1 hx
      obtain ⟨v, hv, hle⟩ := hwinsu2 w hw
      rw [hv]
      exact hle
  have hsupp2 : ∃ T3, Graph.supp (substr mf p (q + k)) k T0 =
      some (minWinVals T0 k mf, T3) := by
    cases hlk : lookupU T0 (substr mf p (q + k)) with
    | some v =>
      have hvv := (hInv0.vals _ v hlk).2.2.2
      rw [hminu2] at hvv
      subst hvv
      exact ⟨T0, supp_hit hlk⟩
    | none =>
      refine ⟨insertU T0 (substr mf p (q + k)) (minWinVals T0 k mf), ?_⟩
      rw [supp_compute hlk hvalu2 (by rw [hu2len]; omega), hminu2]
  refine ⟨substr mf p (q + k), hcalc, ?_, by rw [hu2len]; omega, hvalu2,
    ?_, ?_, hwinsu2, ?_, hsupp2⟩
  · intro hcon
    have := congrArg List.length hcon
    rw [hu2len] at this
    simp at this
    omega
  · rw [htake]
    exact hlkp
  · rw [hdrop]
    exact hlkq
  · refine ⟨substr mf p (p + k), hmemu2, hlkp⟩

-- ---------------------------------------------------------------------
-- Invariant of the main loop of Graph::close
-- ---------------------------------------------------------------------

theorem closeLoop_spec (g : Graph) (hk : 1 ≤ g.k)
    (hN : ∀ n ∈ g.nodes, uValid n.kmer = true ∧ n.kmer.length = g.k ∧
      n.complement = rcT n.kmer) :
    ∀ rest fuel st tr stf,
    (∀ n ∈ rest, n ∈ g.nodes) →
    SuppInv (seedSupp g.nodes) g.k st.supp →
    closeLoop g g.k fuel rest st = .ok (tr, stf) →
    ∀ e ∈ tr,
      e.2.1 ≠ [] ∧ g.k ≤ e.2.1.length ∧ uValid e.2.1 = true ∧
      lookupU (seedSupp g.nodes) (e.2.1.take g.k) = some e.2.2 ∧
      lookupU (seedSupp g.nodes) (e.2.1.drop (e.2.1.length - g.k)) =
        some e.2.2 ∧
      (∀ w ∈ windows e.2.1 g.k, ∃ v,
        lookupU (seedSupp g.nodes) w = some v ∧ e.2.2 ≤ v) ∧
      (∃ w ∈ windows e.2.1 g.k,
        lookupU (seedSupp g.nodes) w = some e.2.2) ∧
      (∃ T3, Graph.supp e.2.1 g.k (seedSupp g.nodes) = some (e.2.2, T3)) := by
  intro rest
  induction rest with
  | nil =>
    intro fuel st tr stf _ _ hok e he
    simp only [closeLoop, PRes.ok.injEq, Prod.mk.injEq] at hok
    obtain ⟨rfl, rfl⟩ := hok
    cases he
  | cons node rest ih =>
    intro fuel st tr stf hsub hInv hok e he
    simp only [closeLoop] at hok
    split at hok
    · cases hok
    · exact ih fuel st tr stf
        (fun n hn => hsub n (List.mem_cons_of_mem node hn)) hInv hok e he
    · split at hok
      · cases hok
      · cases hok
      · next mclo st2 hclo =>
        have hnode : node ∈ g.nodes := hsub node (List.mem_cons_self node rest)
        obtain ⟨hkval, hklen, _⟩ := hN node hnode
        have hwins0 : ∀ w ∈ windows node.kmer g.k,
            (lookupU (seedSupp g.nodes) w).isSome = true := by
          rw [windows_self hklen]
          intro w hw
          simp only [List.mem_singleton] at hw
          subst hw
          exact seedSupp_present hnode
        obtain ⟨D1, D2, D3, D4, D5, _⟩ := closure_spec g hk hN fuel
          node.kmer (node, true) (node, true) st mclo st2 hInv hkval
          (le_of_eq hklen.symm) hwins0 hclo
        split at hok
        · cases hok
        · next u c hshr =>
          obtain ⟨u2, hcalc, hprops⟩ := shrink_spec hk D1
            (suppInv_seed (fun n hn => ⟨(hN n hn).1, (hN n hn).2.1⟩))
            D2 D3 D4 D5
          rw [hcalc] at hshr
          injection hshr with hshr
          injection hshr with h1 h2
          subst h1
          subst h2
          split at hok
          · next tr2 st3 htl =>
            simp only [PRes.ok.injEq, Prod.mk.injEq] at hok
            obtain ⟨rfl, rfl⟩ := hok
            rcases List.mem_cons.1 he with rfl | he2
            · exact hprops
            · exact ih fuel st2 tr2 st3
                (fun n hn => hsub n (List.mem_cons_of_mem node hn)) D1
                htl e he2
          · next r hne =>
            exact (hne tr stf hok).elim

-- ---------------------------------------------------------------------
-- Node content of a constructed graph
-- ---------------------------------------------------------------------

theorem try_from_ok_char {s u : Dna} (h : Unitig.try_from s = .ok u) :
    u = toUpperSeq s ∧ uValid u = true := by
  unfold Unitig.try_from at h
  cases hf : (toUpperSeq s).find? (fun c => !validNuc c) <;>
    simp only [hf] at h
  · injection h with h
    subst h
    refine ⟨rfl, ?_⟩
    simp only [uValid, List.all_eq_true]
    intro x hx
    have := List.find?_eq_none.1 hf x hx
    simpa using this
  · cases h

theorem rev_compl_some_char {u c : Dna} (h : utils.rev_compl u = some c) :
    uValid u = true ∧ c = rcT u := by
  cases hv : uValid u
  · rw [rev_compl_eq_none hv] at h
    cases h
  · rw [rev_compl_eq_some_rcT hv] at h
    injection h with h
    exact ⟨rfl, h.symm⟩

theorem append_char {g : Graph} {s : Dna} {c : Nat} {g2 : Graph}
    (h : Graph.append g s c = some g2) :
    g2.k = g.k ∧ uValid (toUpperSeq s) = true ∧
    g2.nodes = g.nodes ++
      [{ kmer := toUpperSeq s, complement := rcT (toUpperSeq s), count := c,
         out := [], into := [] }] := by
  unfold Graph.append at h
  split at h
  · cases h
  · next u ht =>
    obtain ⟨rfl, hval⟩ := try_from_ok_char ht
    split at h
    · cases h
    · next comp hr =>
      obtain ⟨_, rfl⟩ := rev_compl_some_char hr
      injection h with h
      subst h
      exact ⟨rfl, hval, rfl⟩

theorem appendKmers_content {seq : Dna} :
    ∀ {counts : List Nat} {i : Nat} {g g2 : Graph},
    appendKmers g seq counts i = some g2 →
    g2.k = g.k ∧ ∀ n ∈ g2.nodes, n ∈ g.nodes ∨
      (uValid n.kmer = true ∧ n.kmer.length = g.k ∧
        n.complement = rcT n.kmer) := by
  intro counts
  induction counts with
  | nil =>
    intro i g g2 h
    simp only [appendKmers] at h
    injection h with h
    subst h
    exact ⟨rfl, fun n hn => Or.inl hn⟩
  | cons c rest ih =>
    intro i g g2 h
    simp only [appendKmers] at h
    split at h
    · cases h
    · next hfit =>
      cases ha : g.append (substr seq i (i + g.k)) c <;> rw [ha] at h
      · cases h
      · next g1 =>
        obtain ⟨hk1, hval1, hnodes1⟩ := append_char ha
        obtain ⟨hk2, hmem⟩ := ih h
        refine ⟨by rw [hk2, hk1], ?_⟩
        intro n hn
        rcases hmem n hn with hn1 | hn1
        · rw [hnodes1] at hn1
          rcases List.mem_append.1 hn1 with hn2 | hn2
          · exact Or.inl hn2
          · simp only [List.mem_singleton] at hn2
            subst hn2
            refine Or.inr ⟨hval1, ?_, rfl⟩
            simp only [toUpperSeq, List.length_map]
            rw [substr_length (by omega)]
            omega
        · rw [hk1] at hn1
          exact Or.inr hn1

theorem forall_mem_updateAt {l : List α} {i : Nat} {f : α → α}
    {P : α → Prop} (hf : ∀ a, P a → P (f a)) (h : ∀ a ∈ l, P a) :
    ∀ a ∈ updateAt l i f, P a := by
  induction l generalizing i with
  | nil => intro a ha; cases ha
  | cons x rest ih =>
    intro a ha
    cases i with
    | zero =>
      rcases List.mem_cons.1 ha with rfl | ha2
      · exact hf x (h x (List.mem_cons_self x rest))
      · exact h a (List.mem_cons_of_mem x ha2)
    | succ i2 =>
      rcases List.mem_cons.1 ha with rfl | ha2
      · exact h a (List.mem_cons_self a rest)
      · exact ih (fun b hb => h b (List.mem_cons_of_mem x hb)) a ha2

theorem forall_mem_foldl {is : List ι} {step : List α → ι → List α}
    {P : α → Prop}
    (hstep : ∀ l i, (∀ a ∈ l, P a) → ∀ a ∈ step l i, P a) :
    ∀ {l : List α}, (∀ a ∈ l, P a) → ∀ a ∈ is.foldl step l, P a := by
  induction is with
  | nil => intro l h; exact h
  | cons i rest ih =>
    intro l h
    exact ih (hstep l i h)

theorem chainFwd_content {nodes : List Node} {a b : Nat} {P : Node → Prop}
    (hP : ∀ n o i2, P n → P { n with out := o, into := i2 })
    (h : ∀ n ∈ nodes, P n) : ∀ n ∈ chainFwd nodes a b, P n := by
  unfold chainFwd
  apply forall_mem_foldl (P := P) ?_ h
  intro l i hl
  unfold pushInto pushOut
  apply forall_mem_updateAt ?_ (forall_mem_updateAt ?_ hl)
  · intro n hn
    exact hP _ _ _ hn
  · intro n hn
    exact hP _ _ _ hn

theorem chainRev_content {nodes : List Node} {a b : Nat} {P : Node → Prop}
    (hP : ∀ n o i2, P n → P { n with out := o, into := i2 })
    (h : ∀ n ∈ nodes, P n) : ∀ n ∈ chainRev nodes a b, P n := by
  unfold chainRev
  apply forall_mem_foldl (P := P) ?_ h
  intro l i hl
  unfold pushInto pushOut
  apply forall_mem_updateAt ?_ (forall_mem_updateAt ?_ hl)
  · intro n hn
    exact hP _ _ _ hn
  · intro n hn
    exact hP _ _ _ hn

theorem modifyCk_content {l l2 : List α} {i : Nat} {f : α → α}
    {P : α → Prop} (hf : ∀ a, P a → P (f a))
    (h : modifyCk l i f = some l2) (hl : ∀ a ∈ l, P a) :
    ∀ a ∈ l2, P a := by
  unfold modifyCk at h
  split at h
  · injection h with h
    subst h
    exact forall_mem_updateAt hf hl
  · cases h

theorem resolveLink_content {ranges : List (Nat × Nat)} {nodes nodes2 : List Node}
    {l : (Nat × Bool) × (Nat × Bool)} {P : Node → Prop}
    (hP : ∀ n o i2, P n → P { n with out := o, into := i2 })
    (h : resolveLink ranges nodes l = some nodes2)
    (hl : ∀ n ∈ nodes, P n) : ∀ n ∈ nodes2, P n := by
  unfold resolveLink at h
  split at h
  · simp only [] at h
    split at h <;> split at h
    all_goals (
      split at h
      · injection h with h
        subst h
        exact hl
      · split at h
        · cases h
        · next ns hns =>
          exact modifyCk_content (fun n hn => hP _ _ _ hn) h
            (modifyCk_content (fun n hn => hP _ _ _ hn) hns hl))
  · cases h

theorem foldlM_resolve_content {ranges : List (Nat × Nat)} {P : Node → Prop}
    (hP : ∀ n o i2, P n → P { n with out := o, into := i2 }) :
    ∀ {pend : List ((Nat × Bool) × (Nat × Bool))} {nodes nodes2 : List Node},
    pend.foldlM (resolveLink ranges) nodes = some nodes2 →
    (∀ n ∈ nodes, P n) → ∀ n ∈ nodes2, P n := by
  intro pend
  induction pend with
  | nil =>
    intro nodes nodes2 h hl
    simp only [List.foldlM] at h
    injection h with h
    subst h
    exact hl
  | cons l rest ih =>
    intro nodes nodes2 h hl
    simp only [List.foldlM] at h
    cases hr : resolveLink ranges nodes l <;> rw [hr] at h
    · cases h
    · exact ih h (resolveLink_content hP hr hl)

theorem processRecord_content {g : Graph} {ranges pend} {r : Record}
    {g2 : Graph} {r2 p2}
    (h : processRecord (g, ranges, pend) r = some (g2, r2, p2))
    (hc : ∀ n ∈ g.nodes, uValid n.kmer = true ∧ n.kmer.length = g.k ∧
      n.complement = rcT n.kmer)
    (h0 : g.k = 0 → g.nodes = []) :
    (∀ n ∈ g2.nodes, uValid n.kmer = true ∧ n.kmer.length = g2.k ∧
      n.complement = rcT n.kmer) ∧
    1 ≤ g2.k ∧ (1 ≤ g.k → g2.k = g.k) := by
  simp only [processRecord] at h
  split at h
  · cases h
  · next g1 hg1 =>
    have hg1char : g1.nodes = g.nodes ∧ 1 ≤ g1.k ∧
        (1 ≤ g.k → g1.k = g.k) ∧
        (∀ n ∈ g1.nodes, uValid n.kmer = true ∧ n.kmer.length = g1.k ∧
          n.complement = rcT n.kmer) := by
      by_cases hk0 : g.k = 0
      · rw [if_pos hk0] at hg1
        split at hg1
        · cases hg1
        · injection hg1 with hg1
          subst hg1
          refine ⟨rfl, by simp, by omega, ?_⟩
          rw [h0 hk0]
          intro n hn
          cases hn
      · rw [if_neg hk0] at hg1
        injection hg1 with hg1
        subst hg1
        exact ⟨rfl, by omega, fun _ => rfl, hc⟩
    obtain ⟨hg1nodes, hg1k, hg1keq, hg1c⟩ := hg1char
    split at h
    · cases h
    · next g3 hg3 =>
      obtain ⟨hg3k, hg3mem⟩ := appendKmers_content hg3
      split at h
      · cases h
      · simp only [Option.some.injEq, Prod.mk.injEq] at h
        obtain ⟨rfl, rfl, rfl⟩ := h
        have hbase : ∀ n ∈ g3.nodes, uValid n.kmer = true ∧
            n.kmer.length = g3.k ∧ n.complement = rcT n.kmer := by
          intro n hn
          rcases hg3mem n hn with hn1 | hn1
          · have := hg1c n hn1
            rw [hg3k]
            exact this
          · rw [hg3k]
            exact hn1
        refine ⟨fun n hn => ?_, ?_, fun hk => ?_⟩
        · exact chainRev_content (fun n o i2 hn => hn)
            (chainFwd_content (fun n o i2 hn => hn) hbase) n hn
        · show 1 ≤ g3.k
          omega
        · show g3.k = g.k
          rw [hg3k]
          exact hg1keq hk

theorem foldlM_process_content :
    ∀ {recs : List Record} {g : Graph} {ranges pend} {g2 : Graph} {r2 p2},
    recs.foldlM processRecord (g, ranges, pend) = some (g2, r2, p2) →
    (∀ n ∈ g.nodes, uValid n.kmer = true ∧ n.kmer.length = g.k ∧
      n.complement = rcT n.kmer) →
    (g.k = 0 → g.nodes = []) →
    (∀ n ∈ g2.nodes, uValid n.kmer = true ∧ n.kmer.length = g2.k ∧
      n.complement = rcT n.kmer) ∧
    (recs ≠ [] ∨ 1 ≤ g.k → 1 ≤ g2.k) := by
  intro recs
  induction recs with
  | nil =>
    intro g ranges pend g2 r2 p2 h hc h0
    simp only [List.foldlM] at h
    injection h with h
    simp only [Prod.mk.injEq] at h
    obtain ⟨rfl, rfl, rfl⟩ := h
    exact ⟨hc, fun hor => hor.resolve_left (fun hne => hne rfl)⟩
  | cons r rest ih =>
    intro g ranges pend g2 r2 p2 h hc h0
    simp only [List.foldlM] at h
    cases hp : processRecord (g, ranges, pend) r <;> rw [hp] at h
    · cases h
    · next st1 =>
      obtain ⟨g1, r1, p1⟩ := st1
      obtain ⟨hc1, hk1, _⟩ := processRecord_content hp hc h0
      obtain ⟨hcont, hk2⟩ := ih h hc1 (fun hz => absurd hk1 (by omega))
      exact ⟨hcont, fun _ => hk2 (Or.inr hk1)⟩

theorem fromRecords_content {recs : List Record} {g : Graph}
    (h : Graph.fromRecords recs = some g) :
    (∀ n ∈ g.nodes, uValid n.kmer = true ∧ n.kmer.length = g.k ∧
      n.complement = rcT n.kmer) ∧ (recs ≠ [] → 1 ≤ g.k) := by
  unfold Graph.fromRecords at h
  split at h
  · cases h
  · next g0 ranges pend hfold =>
    split at h
    · cases h
    · next nodes hres =>
      injection h with h
      subst h
      obtain ⟨hc0, hk0⟩ := foldlM_process_content hfold
        (fun n hn => (List.not_mem_nil n hn).elim) (fun _ => rfl)
      refine ⟨?_, fun hne => hk0 (Or.inl hne)⟩
      intro n hn
      exact foldlM_resolve_content (fun n o i2 hn => hn) hres hc0 n hn

/-- C1: closure uniformity.  For every graph built by From from well-formed
records and every pair (u, c) that Graph::close inserts into the closed
output map, every length-k substring of u is present in the seeded support
table with a value at least c, and at least one length-k substring of u
has value exactly c. -/
theorem C1_closure_uniformity {recs : List Record} {g : Graph}
    {fuel : Nat} {out : List (Dna × Nat)}
    (hwf : WFRecs recs = true)
    (hbg : Graph.fromRecords recs = some g)
    (hok : g.closePairs fuel = PRes.ok out) :
    ∀ p ∈ out,
      (∀ i, i + g.k ≤ p.1.length →
        ∃ v, lookupU (seedSupp g.nodes) (substr p.1 i (i + g.k)) = some v ∧
          p.2 ≤ v) ∧
      (∃ i, i + g.k ≤ p.1.length ∧
        lookupU (seedSupp g.nodes) (substr p.1 i (i + g.k)) = some p.2) := by
  obtain ⟨hN, hkrec⟩ := fromRecords_content hbg
  have hne : recs ≠ [] := by
    simp only [WFRecs, Bool.and_eq_true, decide_eq_true_eq] at hwf
    exact hwf.1.1.1
  have hk : 1 ≤ g.k := hkrec hne
  simp only [Graph.closePairs, Graph.closeTrace] at hok
  cases hcl : closeLoop g g.k fuel g.nodes
      { supp := seedSupp g.nodes, is_closed := seedClosed g.nodes,
        n_closed := 0 } <;> rw [hcl] at hok
  · simp only [PRes.map] at hok
    cases hok
  · simp only [PRes.map] at hok
    cases hok
  · next r =>
    obtain ⟨tr, stf⟩ := r
    simp only [PRes.map, PRes.ok.injEq] at hok
    have hout : tr.map (fun t => (t.2.1, t.2.2)) = out := hok
    subst hout
    have hspec := closeLoop_spec g hk hN g.nodes fuel
      { supp := seedSupp g.nodes, is_closed := seedClosed g.nodes,
        n_closed := 0 } tr stf (fun n hn => hn)
      (suppInv_seed (fun n hn => ⟨(hN n hn).1, (hN n hn).2.1⟩)) hcl
    intro p hp
    obtain ⟨e, he, hfe⟩ := List.mem_map.1 hp
    obtain ⟨hne2, hlen, hval, hTake, hDrop, hAll, hEx, hSupp⟩ := hspec e he
    have h1 : p.1 = e.2.1 := by rw [← hfe]
    have h2 : p.2 = e.2.2 := by rw [← hfe]
    rw [h1, h2]
    constructor
    · intro i hi
      exact hAll _ (mem_windows_iff.2 ⟨i, by omega, rfl⟩)
    · obtain ⟨w, hwmem, hwc⟩ := hEx
      obtain ⟨i, hi, rfl⟩ := mem_windows_iff.1 hwmem
      exact ⟨i, by omega, hwc⟩

/-- C1 witness: the scenario C record is well formed, builds gC, and every
emitted pair satisfies the closure-uniformity bounds. -/
theorem C1_closure_uniformity_witness :
    WFRecs [recC] = true ∧ Graph.fromRecords [recC] = some gC ∧
    gC.closePairs 10 = PRes.ok
      [(['A', 'C', 'G', 'T'], 5), (['C', 'G', 'T', 'A'], 2),
       (['G', 'T', 'A', 'C'], 5)] ∧
    ∀ p ∈ [(['A', 'C', 'G', 'T'], 5), (['C', 'G', 'T', 'A'], 2),
       (['G', 'T', 'A', 'C'], 5)],
      (∀ i, i + gC.k ≤ p.1.length →
        ∃ v, lookupU (seedSupp gC.nodes) (substr p.1 i (i + gC.k)) = some v ∧
          p.2 ≤ v) ∧
      (∃ i, i + gC.k ≤ p.1.length ∧
        lookupU (seedSupp gC.nodes) (substr p.1 i (i + gC.k)) = some p.2) :=
  ⟨by decide, by decide, by decide,
    @C1_closure_uniformity [recC] gC 10
      [(['A', 'C', 'G', 'T'], 5), (['C', 'G', 'T', 'A'], 2),
       (['G', 'T', 'A', 'C'], 5)]
      (by decide) (by decide) (by decide)⟩

/-- C4: shrink boundary.  For every graph built by From from well-formed
records and every trace entry (m, u, c) of Graph::close (m the closure
output, u its shrunk form, c the reported count), u is non-empty of length
at least k and the support of u, of its first k-mer and of its last k-mer
all equal c. -/
theorem C4_shrink_boundary {recs : List Record} {g : Graph}
    {fuel : Nat} {tr : List (Dna × Dna × Nat)}
    (hwf : WFRecs recs = true)
    (hbg : Graph.fromRecords recs = some g)
    (hok : g.closeTrace fuel = PRes.ok tr) :
    ∀ e ∈ tr,
      e.2.1 ≠ [] ∧ g.k ≤ e.2.1.length ∧
      lookupU (seedSupp g.nodes) (e.2.1.take g.k) = some e.2.2 ∧
      lookupU (seedSupp g.nodes) (e.2.1.drop (e.2.1.length - g.k)) =
        some e.2.2 ∧
      ∃ T3, Graph.supp e.2.1 g.k (seedSupp g.nodes) = some (e.2.2, T3) := by
  obtain ⟨hN, hkrec⟩ := fromRecords_content hbg
  have hne : recs ≠ [] := by
    simp only [WFRecs, Bool.and_eq_true, decide_eq_true_eq] at hwf
    exact hwf.1.1.1
  have hk : 1 ≤ g.k := hkrec hne
  simp only [Graph.closeTrace] at hok
  cases hcl : closeLoop g g.k fuel g.nodes
      { supp := seedSupp g.nodes, is_closed := seedClosed g.nodes,
        n_closed := 0 } <;> rw [hcl] at hok
  · simp only [PRes.map] at hok
    cases hok
  · simp only [PRes.map] at hok
    cases hok
  · next r =>
    obtain ⟨tr0, stf⟩ := r
    simp only [PRes.map, PRes.ok.injEq] at hok
    have htr : tr0 = tr := hok
    subst htr
    intro e he
    obtain ⟨hne2, hlen, hval, hTake, hDrop, hAll, hEx, hSupp⟩ :=
      closeLoop_spec g hk hN g.nodes fuel
        { supp := seedSupp g.nodes, is_closed := seedClosed g.nodes,
          n_closed := 0 } tr0 stf (fun n hn => hn)
        (suppInv_seed (fun n hn => ⟨(hN n hn).1, (hN n hn).2.1⟩)) hcl e he
    exact ⟨hne2, hlen, hTake, hDrop, hSupp⟩

/-- C4 witness: the scenario C trace (three entries, the middle closure
output ACGTAC shrunk to CGTA) satisfies the shrink-boundary conditions. -/
theorem C4_shrink_boundary_witness :
    WFRecs [recC] = true ∧ Graph.fromRecords [recC] = some gC ∧
    gC.closeTrace 10 = PRes.ok
      [(['A', 'C', 'G', 'T'], ['A', 'C', 'G', 'T'], 5),
       (['A', 'C', 'G', 'T', 'A', 'C'], ['C', 'G', 'T', 'A'], 2),
       (['G', 'T', 'A', 'C'], ['G', 'T', 'A', 'C'], 5)] ∧
    ∀ e ∈ [(['A', 'C', 'G', 'T'], ['A', 'C', 'G', 'T'], 5),
       (['A', 'C', 'G', 'T', 'A', 'C'], ['C', 'G', 'T', 'A'], 2),
       (['G', 'T', 'A', 'C'], ['G', 'T', 'A', 'C'], 5)],
      e.2.1 ≠ [] ∧ gC.k ≤ e.2.1.length ∧
      lookupU (seedSupp gC.nodes) (e.2.1.take gC.k) = some e.2.2 ∧
      lookupU (seedSupp gC.nodes) (e.2.1.drop (e.2.1.length - gC.k)) =
        some e.2.2 ∧
      ∃ T3, Graph.supp e.2.1 gC.k (seedSupp gC.nodes) = some (e.2.2, T3) :=
  ⟨by decide, by decide, by decide,
    @C4_shrink_boundary [recC] gC 10
      [(['A', 'C', 'G', 'T'], ['A', 'C', 'G', 'T'], 5),
       (['A', 'C', 'G', 'T', 'A', 'C'], ['C', 'G', 'T', 'A'], 2),
       (['G', 'T', 'A', 'C'], ['G', 'T', 'A', 'C'], 5)]
      (by decide) (by decide) (by decide)⟩

-- ---------------------------------------------------------------------
-- Positional characterization of the construction: list primitives
-- ---------------------------------------------------------------------

theorem updateAt_length {l : List α} {i : Nat} {f : α → α} :
    (updateAt l i f).length = l.length := by
  induction l generalizing i with
  | nil => rfl
  | cons a as ih =>
    cases i with
    | zero => rfl
    | succ j => simp [updateAt, ih]

theorem getElem?_updateAt_ne {l : List α} {i j : Nat} {f : α → α}
    (h : i ≠ j) : (updateAt l i f)[j]? = l[j]? := by
  induction l generalizing i j with
  | nil => rfl
  | cons a as ih =>
    cases i with
    | zero =>
      cases j with
      | zero => exact absurd rfl h
      | succ j2 => simp [updateAt]
    | succ i2 =>
      cases j with
      | zero => simp [updateAt]
      | succ j2 =>
        simp only [updateAt, List.getElem?_cons_succ]
        exact ih (fun hh => h (by rw [hh]))

theorem getElem?_updateAt_self {l : List α} {i : Nat} {f : α → α} :
    (updateAt l i f)[i]? = (l[i]?).map f := by
  induction l generalizing i with
  | nil => simp [updateAt]
  | cons a as ih =>
    cases i with
    | zero => simp [updateAt]
    | succ j =>
      simp only [updateAt, List.getElem?_cons_succ]
      exact ih

theorem core_updateAt {l : List Node} {i : Nat} {f : Node → Node}
    (hf : ∀ n, nodeCore (f n) = nodeCore n) (j : Nat) :
    ((updateAt l i f)[j]?).map nodeCore = (l[j]?).map nodeCore := by
  by_cases hij : i = j
  · subst hij
    rw [getElem?_updateAt_self]
    cases h : l[i]? with
    | none => rfl
    | some a =>
      show some (nodeCore (f a)) = some (nodeCore a)
      rw [hf a]
  · rw [getElem?_updateAt_ne hij]

theorem core_push_pair {ns : List Node} {p : Nat} {e1 e2 : Edge} (j : Nat) :
    ((pushInto (pushOut ns p e1) p e2)[j]?).map nodeCore =
      (ns[j]?).map nodeCore :=
  (@core_updateAt (updateAt ns p (fun n => { n with out := n.out ++ [e1] })) p
    (fun n => { n with into := n.into ++ [e2] }) (fun n => rfl) j).trans
  (@core_updateAt ns p (fun n => { n with out := n.out ++ [e1] })
    (fun n => rfl) j)

theorem strand_eq_of_core {a b : Node} (h : nodeCore a = nodeCore b)
    (d : Bool) : strand a d = strand b d := by
  injection h with h1 h2
  injection h2 with h2 h3
  cases d <;> simp [strand, h1, h2]

theorem getElem?_core_some {ns ns2 : List Node}
    (hcore : ∀ j : Nat, ((ns2[j]?).map nodeCore) = ((ns[j]?).map nodeCore))
    {i : Nat} {t0 : Node} (h : ns[i]? = some t0) :
    ∃ t2, ns2[i]? = some t2 ∧ ∀ d, strand t2 d = strand t0 d := by
  have hc := hcore i
  rw [h] at hc
  cases h2 : ns2[i]? with
  | none =>
    rw [h2] at hc
    cases hc
  | some t2 =>
    rw [h2] at hc
    injection hc with hc
    exact ⟨t2, rfl, fun d => strand_eq_of_core hc d⟩

theorem adjOK_transfer {k : Nat} {ns ns2 : List Node}
    (hcore : ∀ j : Nat, ((ns2[j]?).map nodeCore) = ((ns[j]?).map nodeCore))
    {i : Nat} (h : adjOK k ns i) : adjOK k ns2 i := by
  obtain ⟨a, b, ha, hb, h1, h2⟩ := h
  obtain ⟨a2, ha2, hsa⟩ := getElem?_core_some hcore ha
  obtain ⟨b2, hb2, hsb⟩ := getElem?_core_some hcore hb
  refine ⟨a2, b2, ha2, hb2, ?_, ?_⟩
  · rw [hsa, hsb]
    exact h1
  · rw [hsa, hsb]
    exact h2

theorem push_pair_edgesOK {k : Nat} {ns : List Node} {p q : Nat}
    {s t : Bool} (hE : edgesOK k ns) (hq : ∃ b, ns[q]? = some b)
    (hov : ∀ a b, ns[p]? = some a → ns[q]? = some b →
      (strand a s).drop 1 = (strand b t).take (k - 1) ∧
      (strand b (!t)).drop 1 = (strand a (!s)).take (k - 1)) :
    edgesOK k (pushInto (pushOut ns p ⟨q, s, t⟩) p ⟨q, !s, !t⟩) := by
  have hcore : ∀ j : Nat,
      (((pushInto (pushOut ns p ⟨q, s, t⟩) p ⟨q, !s, !t⟩)[j]?).map nodeCore) =
        ((ns[j]?).map nodeCore) := fun j => core_push_pair j
  intro n hn
  obtain ⟨j, hj⟩ := List.mem_iff_getElem?.1 hn
  by_cases hpj : p = j
  · subst hpj
    have hj2 : (pushInto (pushOut ns p ⟨q, s, t⟩) p ⟨q, !s, !t⟩)[p]? =
        ((ns[p]?).map
            (fun n => { n with out := n.out ++ [(⟨q, s, t⟩ : Edge)] })).map
          (fun n => { n with into := n.into ++ [(⟨q, !s, !t⟩ : Edge)] }) := by
      unfold pushInto pushOut
      rw [getElem?_updateAt_self, getElem?_updateAt_self]
    rw [hj2] at hj
    cases ha : ns[p]? with
    | none =>
      rw [ha] at hj
      cases hj
    | some a =>
      rw [ha] at hj
      injection hj with hj
      subst hj
      have hmema : a ∈ ns := List.getElem?_mem ha
      obtain ⟨b, hb⟩ := hq
      obtain ⟨hov1, hov2⟩ := hov a b ha hb
      obtain ⟨b2, hb2, hsb⟩ := getElem?_core_some hcore hb
      constructor
      · intro e he
        rcases List.mem_append.1 he with he | he
        · obtain ⟨t0, ht0, heq⟩ := (hE a hmema).1 e he
          obtain ⟨t2, ht2, hst⟩ := getElem?_core_some hcore ht0
          refine ⟨t2, ht2, ?_⟩
          rw [hst]
          exact heq
        · simp only [List.mem_singleton] at he
          subst he
          refine ⟨b2, hb2, ?_⟩
          rw [hsb]
          exact hov1
      · intro e he
        rcases List.mem_append.1 he with he | he
        · obtain ⟨t0, ht0, heq⟩ := (hE a hmema).2 e he
          obtain ⟨t2, ht2, hst⟩ := getElem?_core_some hcore ht0
          refine ⟨t2, ht2, ?_⟩
          rw [hst]
          exact heq
        · simp only [List.mem_singleton] at he
          subst he
          refine ⟨b2, hb2, ?_⟩
          rw [hsb]
          exact hov2
  · have hj2 : (pushInto (pushOut ns p ⟨q, s, t⟩) p ⟨q, !s, !t⟩)[j]? =
        ns[j]? := by
      unfold pushInto pushOut
      rw [getElem?_updateAt_ne hpj, getElem?_updateAt_ne hpj]
    rw [hj2] at hj
    have hmem : n ∈ ns := List.getElem?_mem hj
    constructor
    · intro e he
      obtain ⟨t0, ht0, heq⟩ := (hE n hmem).1 e he
      obtain ⟨t2, ht2, hst⟩ := getElem?_core_some hcore ht0
      refine ⟨t2, ht2, ?_⟩
      rw [hst]
      exact heq
    · intro e he
      obtain ⟨t0, ht0, heq⟩ := (hE n hmem).2 e he
      obtain ⟨t2, ht2, hst⟩ := getElem?_core_some hcore ht0
      refine ⟨t2, ht2, ?_⟩
      rw [hst]
      exact heq

theorem rcT_drop (u : Dna) (n : Nat) :
    (rcT u).drop n = rcT (u.take (u.length - n)) := by
  simp only [rcT]
  rw [List.drop_reverse, List.length_map, List.map_take]

theorem rcT_take (u : Dna) (n : Nat) :
    (rcT u).take n = rcT (u.drop (u.length - n)) := by
  simp only [rcT]
  rw [List.take_reverse, List.length_map, List.map_drop]

theorem adjOK_of_kmers {k : Nat} {a b : Node} (hk : 1 ≤ k)
    (hca : a.complement = rcT a.kmer) (hcb : b.complement = rcT b.kmer)
    (hla : a.kmer.length = k) (hlb : b.kmer.length = k)
    (hadj : a.kmer.drop 1 = b.kmer.take (k - 1)) :
    (strand a true).drop 1 = (strand b true).take (k - 1) ∧
    (strand b false).drop 1 = (strand a false).take (k - 1) := by
  constructor
  · show a.kmer.drop 1 = b.kmer.take (k - 1)
    exact hadj
  · show b.complement.drop 1 = a.complement.take (k - 1)
    rw [hca, hcb, rcT_drop, rcT_take, hla, hlb]
    congr 1
    rw [show k - (k - 1) = 1 by omega]
    exact hadj.symm

theorem chain_steps_fwd {k : Nat} : ∀ (L : List Nat) (ns : List Node),
    edgesOK k ns → (∀ i ∈ L, adjOK k ns i) →
    edgesOK k (L.foldl (fun ns2 i =>
      pushInto (pushOut ns2 i ⟨i + 1, true, true⟩) i
        ⟨i + 1, false, false⟩) ns) ∧
    (∀ j : Nat, ((L.foldl (fun ns2 i =>
      pushInto (pushOut ns2 i ⟨i + 1, true, true⟩) i
        ⟨i + 1, false, false⟩) ns)[j]?).map nodeCore =
      (ns[j]?).map nodeCore) := by
  intro L
  induction L with
  | nil => exact fun ns hE _ => ⟨hE, fun j => rfl⟩
  | cons i L ih =>
    intro ns hE hadj
    obtain ⟨a, b, ha, hb, h1, h2⟩ := hadj i (List.mem_cons_self i L)
    have hstep : edgesOK k (pushInto (pushOut ns i ⟨i + 1, true, true⟩) i
        ⟨i + 1, false, false⟩) := by
      refine push_pair_edgesOK hE ⟨b, hb⟩ ?_
      intro a2 b2 ha2 hb2
      rw [ha] at ha2
      rw [hb] at hb2
      injection ha2 with ha2
      injection hb2 with hb2
      subst ha2
      subst hb2
      exact ⟨h1, h2⟩
    have hcore1 : ∀ j : Nat,
        (((pushInto (pushOut ns i ⟨i + 1, true, true⟩) i
          ⟨i + 1, false, false⟩))[j]?).map nodeCore =
        (ns[j]?).map nodeCore := fun j => core_push_pair j
    have hadj2 : ∀ i2 ∈ L, adjOK k (pushInto (pushOut ns i
        ⟨i + 1, true, true⟩) i ⟨i + 1, false, false⟩) i2 :=
      fun i2 hi2 =>
        adjOK_transfer hcore1 (hadj i2 (List.mem_cons_of_mem i hi2))
    obtain ⟨hE2, hcore2⟩ := ih _ hstep hadj2
    exact ⟨hE2, fun j => (hcore2 j).trans (hcore1 j)⟩

theorem chain_steps_rev {k : Nat} : ∀ (L : List Nat) (ns : List Node),
    edgesOK k ns → (∀ i ∈ L, 1 ≤ i ∧ adjOK k ns (i - 1)) →
    edgesOK k (L.foldl (fun ns2 i =>
      pushInto (pushOut ns2 i ⟨i - 1, false, false⟩) i
        ⟨i - 1, true, true⟩) ns) ∧
    (∀ j : Nat, ((L.foldl (fun ns2 i =>
      pushInto (pushOut ns2 i ⟨i - 1, false, false⟩) i
        ⟨i - 1, true, true⟩) ns)[j]?).map nodeCore =
      (ns[j]?).map nodeCore) := by
  intro L
  induction L with
  | nil => exact fun ns hE _ => ⟨hE, fun j => rfl⟩
  | cons i L ih =>
    intro ns hE hadj
    obtain ⟨hi1, a, b, ha, hb, h1, h2⟩ := hadj i (List.mem_cons_self i L)
    have hb2 : ns[i]? = some b := by
      rw [show i = i - 1 + 1 by omega]
      exact hb
    have hstep : edgesOK k (pushInto (pushOut ns i ⟨i - 1, false, false⟩) i
        ⟨i - 1, true, true⟩) := by
      refine push_pair_edgesOK hE ⟨a, ha⟩ ?_
      intro a2 b2 ha2 hbb2
      rw [hb2] at ha2
      rw [ha] at hbb2
      injection ha2 with ha2
      injection hbb2 with hbb2
      subst ha2
      subst hbb2
      exact ⟨h2, h1⟩
    have hcore1 : ∀ j : Nat,
        (((pushInto (pushOut ns i ⟨i - 1, false, false⟩) i
          ⟨i - 1, true, true⟩))[j]?).map nodeCore =
        (ns[j]?).map nodeCore := fun j => core_push_pair j
    have hadj2 : ∀ i2 ∈ L, 1 ≤ i2 ∧ adjOK k (pushInto (pushOut ns i
        ⟨i - 1, false, false⟩) i ⟨i - 1, true, true⟩) (i2 - 1) :=
      fun i2 hi2 =>
        ⟨(hadj i2 (List.mem_cons_of_mem i hi2)).1,
          adjOK_transfer hcore1 (hadj i2 (List.mem_cons_of_mem i hi2)).2⟩
    obtain ⟨hE2, hcore2⟩ := ih _ hstep hadj2
    exact ⟨hE2, fun j => (hcore2 j).trans (hcore1 j)⟩

theorem chainFwd_WF {k : Nat} {ns : List Node} {first lst : Nat}
    (hE : edgesOK k ns)
    (hadj : ∀ i, first ≤ i → i < lst → adjOK k ns i) :
    edgesOK k (chainFwd ns first lst) ∧
    (∀ j : Nat, ((chainFwd ns first lst)[j]?).map nodeCore =
      (ns[j]?).map nodeCore) := by
  unfold chainFwd
  refine chain_steps_fwd _ ns hE ?_
  intro i hi
  rw [List.mem_range'_1] at hi
  exact hadj i hi.1 (by omega)

theorem chainRev_WF {k : Nat} {ns : List Node} {first lst : Nat}
    (hE : edgesOK k ns)
    (hadj : ∀ i, first ≤ i → i < lst → adjOK k ns i) :
    edgesOK k (chainRev ns first lst) ∧
    (∀ j : Nat, ((chainRev ns first lst)[j]?).map nodeCore =
      (ns[j]?).map nodeCore) := by
  unfold chainRev
  refine chain_steps_rev _ ns hE ?_
  intro i hi
  rw [List.mem_range'_1] at hi
  refine ⟨by omega, ?_⟩
  have := hadj (i - 1) (by omega) (by omega)
  exact this

theorem appendKmers_nodes {seq : Dna} (hval : uValid seq = true) :
    ∀ {counts : List Nat} {i : Nat} {g g2 : Graph},
    appendKmers g seq counts i = some g2 →
    g2.k = g.k ∧
    g2.nodes.length = g.nodes.length + counts.length ∧
    (∀ j : Nat, j < g.nodes.length → g2.nodes[j]? = g.nodes[j]?) ∧
    (∀ j : Nat, j < counts.length →
      ∃ n, g2.nodes[g.nodes.length + j]? = some n ∧
        n.kmer = substr seq (i + j) (i + j + g.k) ∧
        n.complement = rcT n.kmer ∧ n.out = [] ∧ n.into = [] ∧
        i + j + g.k ≤ seq.length) := by
  intro counts
  induction counts with
  | nil =>
    intro i g g2 h
    simp only [appendKmers] at h
    injection h with h
    subst h
    exact ⟨rfl, by simp, fun j _ => rfl, fun j hj => absurd hj (by simp)⟩
  | cons c rest ih =>
    intro i g g2 h
    simp only [appendKmers] at h
    split at h
    · cases h
    · next hfit =>
      cases ha : g.append (substr seq i (i + g.k)) c <;> rw [ha] at h
      · cases h
      · next g1 =>
        have hvs : uValid (substr seq i (i + g.k)) = true :=
          uValid_substr hval _ _
        obtain ⟨hk1, _, hnodes1⟩ := append_char ha
        rw [toUpperSeq_valid hvs] at hnodes1
        obtain ⟨hk2, hlen2, hpre2, hnew2⟩ := ih h
        have hfit2 : i + g.k ≤ seq.length := by omega
        have hlen1 : g1.nodes.length = g.nodes.length + 1 := by
          rw [hnodes1]
          simp
        refine ⟨hk2.trans hk1, by simp only [List.length_cons]; omega,
          ?_, ?_⟩
        · intro j hj
          rw [hpre2 j (by omega), hnodes1,
            List.getElem?_append_left (by omega)]
        · intro j hj
          cases j with
          | zero =>
            refine ⟨{ kmer := substr seq i (i + g.k),
                      complement := rcT (substr seq i (i + g.k)),
                      count := c, out := [], into := [] },
              ?_, rfl, rfl, rfl, rfl, hfit2⟩
            have hp := hpre2 g.nodes.length (by omega)
            rw [hnodes1] at hp
            rw [show g.nodes.length + 0 = g.nodes.length by omega, hp,
              List.getElem?_concat_length]
          | succ j2 =>
            obtain ⟨n, hn, hkm, hcmp, hout, hinto, hle⟩ :=
              hnew2 j2 (by simp only [List.length_cons] at hj; omega)
            refine ⟨n, ?_, ?_, hcmp, hout, hinto, by omega⟩
            · rw [show g.nodes.length + (j2 + 1) =
                g1.nodes.length + j2 by omega]
              exact hn
            · rw [show i + (j2 + 1) = i + 1 + j2 by omega, ← hk1]
              exact hkm

theorem getElem?_lt_length {l : List α} {j : Nat} {a : α}
    (h : l[j]? = some a) : j < l.length := by
  by_contra hle
  rw [List.getElem?_eq_none (by omega)] at h
  cases h

theorem rangeFact_transfer {ranges : List (Nat × Nat)}
    {nodes nodes2 : List Node} {k i : Nat} {r : Record}
    (hcore : ∀ j : Nat, ((nodes2[j]?).map nodeCore) = ((nodes[j]?).map nodeCore))
    (h : rangeFact ranges nodes k i r) : rangeFact ranges nodes2 k i r := by
  obtain ⟨p, hp, ⟨nf, hnf, hkf⟩, ⟨nl, hnl, hkl⟩⟩ := h
  obtain ⟨nf2, hnf2, hsf⟩ := getElem?_core_some hcore hnf
  obtain ⟨nl2, hnl2, hsl⟩ := getElem?_core_some hcore hnl
  have hkf2 : nf2.kmer = nf.kmer := hsf true
  have hkl2 : nl2.kmer = nl.kmer := hsl true
  exact ⟨p, hp, ⟨nf2, hnf2, by rw [hkf2, hkf]⟩,
    ⟨nl2, hnl2, by rw [hkl2, hkl]⟩⟩

theorem rangeFact_extend {ranges : List (Nat × Nat)} {p0 : Nat × Nat}
    {nodes : List Node} {k i : Nat} {r : Record}
    (h : rangeFact ranges nodes k i r) :
    rangeFact (ranges ++ [p0]) nodes k i r := by
  obtain ⟨p, hp, hf, hl⟩ := h
  refine ⟨p, ?_, hf, hl⟩
  rw [List.getElem?_append_left (getElem?_lt_length hp)]
  exact hp

theorem edgesOK_append_prefix {k : Nat} {nodes nodes2 : List Node}
    (hE : edgesOK k nodes)
    (hpre : ∀ j : Nat, j < nodes.length → nodes2[j]? = nodes[j]?)
    (hnew : ∀ j : Nat, nodes.length ≤ j → j < nodes2.length →
      ∃ n, nodes2[j]? = some n ∧ n.out = [] ∧ n.into = []) :
    edgesOK k nodes2 := by
  intro n hn
  obtain ⟨j, hj⟩ := List.mem_iff_getElem?.1 hn
  by_cases hjl : j < nodes.length
  · have hj0 : nodes[j]? = some n := by
      rw [← hpre j hjl]
      exact hj
    have hmem : n ∈ nodes := List.getElem?_mem hj0
    obtain ⟨ho, hi⟩ := hE n hmem
    constructor
    · intro e he
      obtain ⟨t, ht, heq⟩ := ho e he
      refine ⟨t, ?_, heq⟩
      rw [hpre _ (getElem?_lt_length ht)]
      exact ht
    · intro e he
      obtain ⟨t, ht, heq⟩ := hi e he
      refine ⟨t, ?_, heq⟩
      rw [hpre _ (getElem?_lt_length ht)]
      exact ht
  · obtain ⟨n2, hn2, ho2, hi2⟩ := hnew j (by omega) (getElem?_lt_length hj)
    rw [hj] at hn2
    injection hn2 with hn2
    subst hn2
    constructor
    · intro e he
      rw [ho2] at he
      cases he
    · intro e he
      rw [hi2] at he
      cases he

theorem substr_adj {u : Dna} {j k : Nat} :
    (substr u j (j + k)).drop 1 = (substr u (j + 1) (j + 1 + k)).take (k - 1) := by
  unfold substr
  rw [List.drop_take, List.drop_drop, List.take_take]
  congr 1
  omega

theorem rangeFact_transfer_pre {ranges : List (Nat × Nat)}
    {nodes nodes2 : List Node} {k i : Nat} {r : Record}
    (hpre : ∀ j : Nat, j < nodes.length → nodes2[j]? = nodes[j]?)
    (h : rangeFact ranges nodes k i r) : rangeFact ranges nodes2 k i r := by
  obtain ⟨p, hp, ⟨nf, hnf, hkf⟩, ⟨nl, hnl, hkl⟩⟩ := h
  refine ⟨p, hp, ⟨nf, ?_, hkf⟩, ⟨nl, ?_, hkl⟩⟩
  · rw [hpre _ (getElem?_lt_length hnf)]
    exact hnf
  · rw [hpre _ (getElem?_lt_length hnl)]
    exact hnl

theorem processRecord_WF {recs : List Record} {k : Nat} (hk : 1 ≤ k)
    {g : Graph} {ranges : List (Nat × Nat)}
    {pend : List ((Nat × Bool) × (Nat × Bool))} {r : Record}
    {g2 : Graph} {ranges2 : List (Nat × Nat)}
    {pend2 : List ((Nat × Bool) × (Nat × Bool))}
    (h : processRecord (g, ranges, pend) r = some (g2, ranges2, pend2))
    (hwfr : WFRec k r = true)
    (hrec : recs[ranges.length]? = some r)
    (hgk : g.k = 0 ∨ g.k = k)
    (hE : edgesOK k g.nodes)
    (hR : ∀ i rr, recs[i]? = some rr → i < ranges.length →
      rangeFact ranges g.nodes k i rr)
    (hP : pendOK recs pend) :
    g2.k = k ∧ ranges2.length = ranges.length + 1 ∧
    edgesOK k g2.nodes ∧
    (∀ i rr, recs[i]? = some rr → i < ranges2.length →
      rangeFact ranges2 g2.nodes k i rr) ∧
    pendOK recs pend2 := by
  simp only [WFRec, Bool.and_eq_true, decide_eq_true_eq] at hwfr
  obtain ⟨⟨hval, hcne⟩, hlrel⟩ := hwfr
  have hcnt1 : 1 ≤ r.counts.length := by
    cases hc : r.counts with
    | nil => exact absurd hc hcne
    | cons a l => simp
  simp only [processRecord] at h
  split at h
  · cases h
  · next g1 hg1 =>
    have hg1c : g1.k = k ∧ g1.nodes = g.nodes := by
      rcases hgk with hgk | hgk
      · rw [if_pos hgk] at hg1
        split at hg1
        · cases hg1
        · injection hg1 with hg1
          subst hg1
          refine ⟨?_, rfl⟩
          show r.seq.length - r.counts.length + 1 = k
          omega
      · rw [if_neg (by omega)] at hg1
        injection hg1 with hg1
        subst hg1
        exact ⟨hgk, rfl⟩
    obtain ⟨hg1k, hg1n⟩ := hg1c
    rw [← hg1n] at hE hR
    split at h
    · cases h
    · next g3 hg3 =>
      obtain ⟨hk3, hlen3, hpre3, hnew3⟩ := appendKmers_nodes hval hg3
      rw [hg1k] at hk3 hnew3
      simp only [Nat.zero_add] at hnew3
      split at h
      · cases h
      · simp only [Option.some.injEq, Prod.mk.injEq] at h
        obtain ⟨rfl, rfl, rfl⟩ := h
        have hnewE : ∀ j : Nat, g1.nodes.length ≤ j → j < g3.nodes.length →
            ∃ n, g3.nodes[j]? = some n ∧ n.out = [] ∧ n.into = [] := by
          intro j hj1 hj2
          obtain ⟨n, hn, _, _, hout, hinto, _⟩ :=
            hnew3 (j - g1.nodes.length) (by omega)
          refine ⟨n, ?_, hout, hinto⟩
          rw [show j = g1.nodes.length + (j - g1.nodes.length) by omega]
          exact hn
        have hE3 : edgesOK k g3.nodes :=
          edgesOK_append_prefix hE hpre3 hnewE
        have hadj3 : ∀ i, g1.nodes.length ≤ i → i < g3.nodes.length - 1 →
            adjOK k g3.nodes i := by
          intro i hi1 hi2
          obtain ⟨a, ha, hkma, hca, _, _, hla⟩ :=
            hnew3 (i - g1.nodes.length) (by omega)
          obtain ⟨b, hb, hkmb, hcb, _, _, hlb⟩ :=
            hnew3 (i - g1.nodes.length + 1) (by omega)
          have hlena : a.kmer.length = k := by
            rw [hkma, substr_length (by omega)]
            omega
          have hlenb : b.kmer.length = k := by
            rw [hkmb, substr_length (by omega)]
            omega
          have hadjk : a.kmer.drop 1 = b.kmer.take (k - 1) := by
            rw [hkma, hkmb]
            exact substr_adj
          obtain ⟨e1, e2⟩ := adjOK_of_kmers hk hca hcb hlena hlenb hadjk
          refine ⟨a, b, ?_, ?_, e1, e2⟩
          · rw [show i = g1.nodes.length + (i - g1.nodes.length) by omega]
            exact ha
          · rw [show i + 1 =
              g1.nodes.length + (i - g1.nodes.length + 1) by omega]
            exact hb
        obtain ⟨hE4, hcore4⟩ := chainFwd_WF hE3 hadj3
        have hadj4 : ∀ i, g1.nodes.length ≤ i → i < g3.nodes.length - 1 →
            adjOK k (chainFwd g3.nodes g1.nodes.length
              (g3.nodes.length - 1)) i :=
          fun i h1 h2 => adjOK_transfer hcore4 (hadj3 i h1 h2)
        obtain ⟨hE5, hcore5⟩ := chainRev_WF hE4 hadj4
        have hcore45 : ∀ j : Nat,
            (((chainRev (chainFwd g3.nodes g1.nodes.length
              (g3.nodes.length - 1)) g1.nodes.length
              (g3.nodes.length - 1))[j]?).map nodeCore) =
            ((g3.nodes[j]?).map nodeCore) :=
          fun j => (hcore5 j).trans (hcore4 j)
        refine ⟨hk3, by simp, hE5, ?_, ?_⟩
        · intro i rr hi hilt
          by_cases hio : i < ranges.length
          · exact rangeFact_transfer hcore45
              (rangeFact_transfer_pre hpre3
                (rangeFact_extend (hR i rr hi hio)))
          · have hlr : (ranges ++
                [(g1.nodes.length, g3.nodes.length - 1)]).length =
                ranges.length + 1 := by simp
            have hieq : i = ranges.length := by omega
            subst hieq
            rw [hrec] at hi
            injection hi with hi
            subst hi
            obtain ⟨n0, hn0, hkm0, _, _, _, hle0⟩ := hnew3 0 (by omega)
            rw [Nat.zero_add] at hkm0
            obtain ⟨nl0, hnl0, hkml0, _, _, _, hlel0⟩ :=
              hnew3 (r.counts.length - 1) (by omega)
            refine ⟨(g1.nodes.length, g3.nodes.length - 1), ?_, ?_, ?_⟩
            · rw [List.getElem?_concat_length]
            · obtain ⟨nf2, hnf2, hsf⟩ := getElem?_core_some hcore45 hn0
              refine ⟨nf2, hnf2, ?_⟩
              have hkf2 : nf2.kmer = n0.kmer := hsf true
              rw [hkf2, hkm0]
              show (r.seq.drop 0).take (k - 0) = r.seq.take k
              rw [List.drop_zero, Nat.sub_zero]
            · have hl0 : g3.nodes[g3.nodes.length - 1]? = some nl0 := by
                rw [show g3.nodes.length - 1 =
                  g1.nodes.length + (r.counts.length - 1) by omega]
                exact hnl0
              obtain ⟨nl2, hnl2, hsl⟩ := getElem?_core_some hcore45 hl0
              refine ⟨nl2, hnl2, ?_⟩
              have hkl2 : nl2.kmer = nl0.kmer := hsl true
              rw [hkl2, hkml0,
                show r.counts.length - 1 = r.seq.length - k by omega]
              unfold substr
              apply List.take_of_length_le
              rw [List.length_drop]
              omega
        · intro q hq
          rcases List.mem_append.1 hq with hq | hq
          · exact hP q hq
          · obtain ⟨l, hl, hfe⟩ := List.mem_map.1 hq
            have h1 : q.1.1 = ranges.length := by rw [← hfe]
            have h2 : q.1.2 = l.1 := by rw [← hfe]
            have h3 : q.2.1 = l.2.1 := by rw [← hfe]
            have h4 : q.2.2 = l.2.2 := by rw [← hfe]
            refine ⟨r, ?_, ?_⟩
            · rw [h1]
              exact hrec
            · rw [h2, h3, h4]
              exact hl

theorem endpoint_out {k : Nat} {rs : Record} {nodes0 : List Node}
    {fromR : Nat × Nat} {nf nl : Node} (hk : 1 ≤ k)
    (hkle : k ≤ rs.seq.length)
    (hnf : nodes0[fromR.1]? = some nf) (hkf : nf.kmer = rs.seq.take k)
    (hnl : nodes0[fromR.2]? = some nl)
    (hkl : nl.kmer = rs.seq.drop (rs.seq.length - k))
    (hcf : nf.complement = rcT nf.kmer) (hcl : nl.complement = rcT nl.kmer)
    (sb : Bool) :
    ∃ a, nodes0[if sb then fromR.2 else fromR.1]? = some a ∧
      (strand a sb).drop 1 = epOut k rs sb := by
  cases sb with
  | true =>
    refine ⟨nl, hnl, ?_⟩
    show nl.kmer.drop 1 = rs.seq.drop (rs.seq.length - (k - 1))
    rw [hkl, List.drop_drop]
    congr 1
    omega
  | false =>
    refine ⟨nf, hnf, ?_⟩
    show nf.complement.drop 1 = rcT (rs.seq.take (k - 1))
    rw [hcf, hkf, rcT_drop, List.length_take]
    congr 1
    rw [List.take_take]
    congr 1
    omega

theorem endpoint_in {k : Nat} {rt : Record} {nodes0 : List Node}
    {toR : Nat × Nat} {nf nl : Node} (hk : 1 ≤ k)
    (hkle : k ≤ rt.seq.length)
    (hnf : nodes0[toR.1]? = some nf) (hkf : nf.kmer = rt.seq.take k)
    (hnl : nodes0[toR.2]? = some nl)
    (hkl : nl.kmer = rt.seq.drop (rt.seq.length - k))
    (hcf : nf.complement = rcT nf.kmer) (hcl : nl.complement = rcT nl.kmer)
    (tb : Bool) :
    ∃ b, nodes0[if tb then toR.1 else toR.2]? = some b ∧
      (strand b tb).take (k - 1) = epIn k rt tb := by
  cases tb with
  | true =>
    refine ⟨nf, hnf, ?_⟩
    show nf.kmer.take (k - 1) = rt.seq.take (k - 1)
    rw [hkf, List.take_take]
    congr 1
    omega
  | false =>
    refine ⟨nl, hnl, ?_⟩
    show nl.complement.take (k - 1) = rcT (rt.seq.drop (rt.seq.length - (k - 1)))
    rw [hcl, hkl, rcT_take, List.length_drop, List.drop_drop]
    congr 1
    congr 1
    omega

theorem link_push_edgesOK {k : Nat} {ns ns2 ns3 : List Node} {p q2 : Nat}
    {s t : Bool} (hE : edgesOK k ns) (hpq : p ≠ q2)
    (hov : ∀ a b, ns[p]? = some a → ns[q2]? = some b →
      (strand a s).drop 1 = (strand b t).take (k - 1))
    (hm : modifyCk ns p
      (fun n => { n with out := n.out ++ [(⟨q2, s, t⟩ : Edge)] }) = some ns2)
    (hm2 : modifyCk ns2 q2
      (fun n => { n with into := n.into ++ [(⟨p, t, s⟩ : Edge)] }) = some ns3) :
    edgesOK k ns3 ∧
    (∀ j : Nat, ((ns3[j]?).map nodeCore) = ((ns[j]?).map nodeCore)) := by
  unfold modifyCk at hm hm2
  split at hm
  · rename_i hlt1
    injection hm with hm
    subst hm
    split at hm2
    · rename_i hlt2
      injection hm2 with hm2
      subst hm2
      have hlt2n : q2 < ns.length := by
        rw [updateAt_length] at hlt2
        exact hlt2
      have hcore : ∀ j : Nat,
          (((updateAt (updateAt ns p
            (fun n => { n with out := n.out ++ [(⟨q2, s, t⟩ : Edge)] })) q2
            (fun n => { n with into := n.into ++ [(⟨p, t, s⟩ : Edge)] }))[j]?).map
              nodeCore) = ((ns[j]?).map nodeCore) :=
        fun j => (@core_updateAt (updateAt ns p
            (fun n => { n with out := n.out ++ [(⟨q2, s, t⟩ : Edge)] })) q2
            (fun n => { n with into := n.into ++ [(⟨p, t, s⟩ : Edge)] })
            (fun n => rfl) j).trans
          (@core_updateAt ns p
            (fun n => { n with out := n.out ++ [(⟨q2, s, t⟩ : Edge)] })
            (fun n => rfl) j)
      refine ⟨?_, hcore⟩
      intro n hn
      obtain ⟨j, hj⟩ := List.mem_iff_getElem?.1 hn
      by_cases hjp : j = p
      · subst hjp
        rw [getElem?_updateAt_ne (fun hh => hpq hh.symm),
          getElem?_updateAt_self] at hj
        cases ha : ns[j]? with
        | none =>
          rw [ha] at hj
          cases hj
        | some a =>
          rw [ha] at hj
          injection hj with hj
          subst hj
          have hmema : a ∈ ns := List.getElem?_mem ha
          constructor
          · intro e he
            rcases List.mem_append.1 he with he | he
            · obtain ⟨t0, ht0, heq⟩ := (hE a hmema).1 e he
              obtain ⟨t2, ht2, hst⟩ := getElem?_core_some hcore ht0
              refine ⟨t2, ht2, ?_⟩
              rw [hst]
              exact heq
            · simp only [List.mem_singleton] at he
              subst he
              cases hb : ns[q2]? with
              | none =>
                rw [List.getElem?_eq_getElem hlt2n] at hb
                cases hb
              | some b =>
                obtain ⟨b2, hb2, hsb⟩ := getElem?_core_some hcore hb
                refine ⟨b2, hb2, ?_⟩
                rw [hsb]
                exact hov a b ha hb
          · intro e he
            obtain ⟨t0, ht0, heq⟩ := (hE a hmema).2 e he
            obtain ⟨t2, ht2, hst⟩ := getElem?_core_some hcore ht0
            refine ⟨t2, ht2, ?_⟩
            rw [hst]
            exact heq
      · by_cases hjq : j = q2
        · subst hjq
          rw [getElem?_updateAt_self, getElem?_updateAt_ne
            (fun hh => hjp hh.symm)] at hj
          cases hb : ns[j]? with
          | none =>
            rw [hb] at hj
            cases hj
          | some b =>
            rw [hb] at hj
            injection hj with hj
            subst hj
            have hmemb : b ∈ ns := List.getElem?_mem hb
            constructor
            · intro e he
              obtain ⟨t0, ht0, heq⟩ := (hE b hmemb).1 e he
              obtain ⟨t2, ht2, hst⟩ := getElem?_core_some hcore ht0
              refine ⟨t2, ht2, ?_⟩
              rw [hst]
              exact heq
            · intro e he
              rcases List.mem_append.1 he with he | he
              · obtain ⟨t0, ht0, heq⟩ := (hE b hmemb).2 e he
                obtain ⟨t2, ht2, hst⟩ := getElem?_core_some hcore ht0
                refine ⟨t2, ht2, ?_⟩
                rw [hst]
                exact heq
              · simp only [List.mem_singleton] at he
                subst he
                cases ha : ns[p]? with
                | none =>
                  rw [List.getElem?_eq_getElem hlt1] at ha
                  cases ha
                | some a =>
                  obtain ⟨a2, ha2, hsa⟩ := getElem?_core_some hcore ha
                  refine ⟨a2, ha2, ?_⟩
                  rw [hsa]
                  exact hov a b ha hb
        · rw [getElem?_updateAt_ne (fun hh => hjq hh.symm),
            getElem?_updateAt_ne (fun hh => hjp hh.symm)] at hj
          have hmem : n ∈ ns := List.getElem?_mem hj
          constructor
          · intro e he
            obtain ⟨t0, ht0, heq⟩ := (hE n hmem).1 e he
            obtain ⟨t2, ht2, hst⟩ := getElem?_core_some hcore ht0
            refine ⟨t2, ht2, ?_⟩
            rw [hst]
            exact heq
          · intro e he
            obtain ⟨t0, ht0, heq⟩ := (hE n hmem).2 e he
            obtain ⟨t2, ht2, hst⟩ := getElem?_core_some hcore ht0
            refine ⟨t2, ht2, ?_⟩
            rw [hst]
            exact heq
    · cases hm2
  · cases hm

theorem resolveLink_WF {recs : List Record} {k : Nat}
    {ranges : List (Nat × Nat)} {nodes0 : List Node} (hk : 1 ≤ k)
    (hall : ∀ rr ∈ recs, WFRec k rr = true)
    (hlinks : ∀ rr ∈ recs, linkOK recs k rr = true)
    (hR : ∀ i rr, recs[i]? = some rr → i < ranges.length →
      rangeFact ranges nodes0 k i rr)
    (hcont : ∀ n ∈ nodes0, uValid n.kmer = true ∧ n.kmer.length = k ∧
      n.complement = rcT n.kmer)
    {ns ns2 : List Node} {q : (Nat × Bool) × (Nat × Bool)}
    (h : resolveLink ranges ns q = some ns2)
    (hq : ∃ rs, recs[q.1.1]? = some rs ∧ (q.1.2, q.2.1, q.2.2) ∈ rs.links)
    (hE : edgesOK k ns)
    (hcore : ∀ j : Nat, ((ns[j]?).map nodeCore) = ((nodes0[j]?).map nodeCore)) :
    edgesOK k ns2 ∧
    (∀ j : Nat, ((ns2[j]?).map nodeCore) = ((nodes0[j]?).map nodeCore)) := by
  unfold resolveLink at h
  split at h
  · rename_i fromR toR h1 h2
    simp only [] at h
    obtain ⟨rs, hrs, hlmem⟩ := hq
    have hrsm : rs ∈ recs := List.getElem?_mem hrs
    have hlinkrs := hlinks rs hrsm
    simp only [linkOK, List.all_eq_true] at hlinkrs
    have hl : (match recs[q.2.1]? with
        | none => false
        | some rt => decide (epOut k rs q.1.2 = epIn k rt q.2.2)) = true :=
      hlinkrs (q.1.2, q.2.1, q.2.2) hlmem
    cases hrt : recs[q.2.1]? with
    | none =>
      rw [hrt] at hl
      simp at hl
    | some rt =>
      rw [hrt] at hl
      have hep : epOut k rs q.1.2 = epIn k rt q.2.2 := by
        have hd : decide (epOut k rs q.1.2 = epIn k rt q.2.2) = true := hl
        exact of_decide_eq_true hd
      have hrtm : rt ∈ recs := List.getElem?_mem hrt
      have hwrs := hall rs hrsm
      have hwrt := hall rt hrtm
      simp only [WFRec, Bool.and_eq_true, decide_eq_true_eq] at hwrs hwrt
      obtain ⟨⟨hvrs, hcners⟩, hlens⟩ := hwrs
      obtain ⟨⟨hvrt, hcnert⟩, hlent⟩ := hwrt
      have hcnts : 1 ≤ rs.counts.length := by
        cases hc : rs.counts with
        | nil => exact absurd hc hcners
        | cons a l => simp
      have hcntt : 1 ≤ rt.counts.length := by
        cases hc : rt.counts with
        | nil => exact absurd hc hcnert
        | cons a l => simp
      have hks : k ≤ rs.seq.length := by omega
      have hkt : k ≤ rt.seq.length := by omega
      obtain ⟨pf, hpf, ⟨nf, hnf, hkf⟩, ⟨nl, hnl, hkl⟩⟩ :=
        hR q.1.1 rs hrs (getElem?_lt_length h1)
      rw [h1] at hpf
      injection hpf with hpf
      subst hpf
      obtain ⟨pt, hpt, ⟨mf, hmf, hktf⟩, ⟨ml, hml, hktl⟩⟩ :=
        hR q.2.1 rt hrt (getElem?_lt_length h2)
      rw [h2] at hpt
      injection hpt with hpt
      subst hpt
      obtain ⟨_, _, hcnf⟩ := hcont nf (List.getElem?_mem hnf)
      obtain ⟨_, _, hcnl⟩ := hcont nl (List.getElem?_mem hnl)
      obtain ⟨_, _, hcmf⟩ := hcont mf (List.getElem?_mem hmf)
      obtain ⟨_, _, hcml⟩ := hcont ml (List.getElem?_mem hml)
      obtain ⟨a0, ha0, hout0⟩ :=
        endpoint_out hk hks hnf hkf hnl hkl hcnf hcnl q.1.2
      obtain ⟨b0, hb0, hin0⟩ :=
        endpoint_in hk hkt hmf hktf hml hktl hcmf hcml q.2.2
      obtain ⟨a1, ha1, hsa⟩ := getElem?_core_some hcore ha0
      obtain ⟨b1, hb1, hsb⟩ := getElem?_core_some hcore hb0
      generalize hgen1 : (if q.1.2 = true then fromR.2 else fromR.1) = fromN
        at h ha1
      generalize hgen2 : (if q.2.2 = true then toR.1 else toR.2) = toN
        at h hb1
      split at h
      · injection h with h
        subst h
        exact ⟨hE, hcore⟩
      · rename_i hneq
        split at h
        · cases h
        · rename_i nsx hmx
          have hov : ∀ a b,
              ns[fromN]? = some a →
              ns[toN]? = some b →
              (strand a q.1.2).drop 1 = (strand b q.2.2).take (k - 1) := by
            intro a b ha hb
            rw [ha1] at ha
            rw [hb1] at hb
            injection ha with ha
            injection hb with hb
            subst ha
            subst hb
            rw [hsa, hsb, hout0, hin0]
            exact hep
          obtain ⟨hE2, hcore2⟩ := link_push_edgesOK hE hneq hov hmx h
          exact ⟨hE2, fun j => (hcore2 j).trans (hcore j)⟩
  · cases h

theorem foldlM_resolve_WF {recs : List Record} {k : Nat}
    {ranges : List (Nat × Nat)} {nodes0 : List Node} (hk : 1 ≤ k)
    (hall : ∀ rr ∈ recs, WFRec k rr = true)
    (hlinks : ∀ rr ∈ recs, linkOK recs k rr = true)
    (hR : ∀ i rr, recs[i]? = some rr → i < ranges.length →
      rangeFact ranges nodes0 k i rr)
    (hcont : ∀ n ∈ nodes0, uValid n.kmer = true ∧ n.kmer.length = k ∧
      n.complement = rcT n.kmer) :
    ∀ {pend : List ((Nat × Bool) × (Nat × Bool))} {ns ns2 : List Node},
    pend.foldlM (resolveLink ranges) ns = some ns2 →
    pendOK recs pend →
    edgesOK k ns →
    (∀ j : Nat, ((ns[j]?).map nodeCore) = ((nodes0[j]?).map nodeCore)) →
    edgesOK k ns2 ∧
    (∀ j : Nat, ((ns2[j]?).map nodeCore) = ((nodes0[j]?).map nodeCore)) := by
  intro pend
  induction pend with
  | nil =>
    intro ns ns2 h _ hE hcore
    simp only [List.foldlM] at h
    injection h with h
    subst h
    exact ⟨hE, hcore⟩
  | cons q rest ih =>
    intro ns ns2 h hP hE hcore
    simp only [List.foldlM] at h
    cases hr : resolveLink ranges ns q <;> rw [hr] at h
    · cases h
    · next ns1 =>
      obtain ⟨hE1, hcore1⟩ := resolveLink_WF hk hall hlinks hR hcont hr
        (hP q (List.mem_cons_self q rest)) hE hcore
      exact ih h (fun q2 hq2 => hP q2 (List.mem_cons_of_mem q hq2)) hE1 hcore1

theorem foldlM_process_WF {recs : List Record} {k : Nat} (hk : 1 ≤ k)
    (hall : ∀ rr ∈ recs, WFRec k rr = true) :
    ∀ {rest : List Record} {g : Graph} {ranges : List (Nat × Nat)}
      {pend : List ((Nat × Bool) × (Nat × Bool))} {g2 : Graph} {r2 p2},
    rest.foldlM processRecord (g, ranges, pend) = some (g2, r2, p2) →
    (∀ j : Nat, rest[j]? = recs[ranges.length + j]?) →
    (g.k = 0 ∨ g.k = k) →
    edgesOK k g.nodes →
    (∀ i rr, recs[i]? = some rr → i < ranges.length →
      rangeFact ranges g.nodes k i rr) →
    pendOK recs pend →
    (rest ≠ [] → g2.k = k) ∧ (g.k = k → g2.k = k) ∧
    r2.length = ranges.length + rest.length ∧
    edgesOK k g2.nodes ∧
    (∀ i rr, recs[i]? = some rr → i < r2.length →
      rangeFact r2 g2.nodes k i rr) ∧
    pendOK recs p2 := by
  intro rest
  induction rest with
  | nil =>
    intro g ranges pend g2 r2 p2 h hsuf hgk hE hR hP
    simp only [List.foldlM] at h
    injection h with h
    simp only [Prod.mk.injEq] at h
    obtain ⟨rfl, rfl, rfl⟩ := h
    exact ⟨fun hne => absurd rfl hne, fun hh => hh, by simp, hE, hR, hP⟩
  | cons r rest ih =>
    intro g ranges pend g2 r2 p2 h hsuf hgk hE hR hP
    simp only [List.foldlM] at h
    cases hp : processRecord (g, ranges, pend) r <;> rw [hp] at h
    · cases h
    · next st1 =>
      obtain ⟨g1, r1, p1⟩ := st1
      have hrec : recs[ranges.length]? = some r := by
        have hs := hsuf 0
        simp only [List.getElem?_cons_zero, Nat.add_zero] at hs
        exact hs.symm
      have hwfr : WFRec k r = true := hall r (List.getElem?_mem hrec)
      obtain ⟨hk1, hlen1, hE1, hR1, hP1⟩ :=
        processRecord_WF hk hp hwfr hrec hgk hE hR hP
      have hsuf1 : ∀ j : Nat, rest[j]? = recs[r1.length + j]? := by
        intro j
        have hs := hsuf (j + 1)
        simp only [List.getElem?_cons_succ] at hs
        rw [hs, hlen1, show ranges.length + 1 + j =
          ranges.length + (j + 1) by omega]
      obtain ⟨_, hkk, hlen2, hE2, hR2, hP2⟩ :=
        ih h hsuf1 (Or.inr hk1) hE1 hR1 hP1
      have hgk2 : g2.k = k := hkk hk1
      refine ⟨fun _ => hgk2, fun _ => hgk2, ?_, hE2, hR2, hP2⟩
      rw [hlen2, hlen1]
      simp only [List.length_cons]
      omega

theorem fromRecords_WF {recs : List Record} {g : Graph}
    (hwf : WFRecs recs = true) (h : Graph.fromRecords recs = some g) :
    WFedges g ∧ g.k = kOf recs := by
  simp only [WFRecs, Bool.and_eq_true, decide_eq_true_eq,
    List.all_eq_true] at hwf
  obtain ⟨⟨⟨hne, hk⟩, hallwf⟩, halllink⟩ := hwf
  unfold Graph.fromRecords at h
  split at h
  · cases h
  · next g0 ranges pend hfold =>
    split at h
    · cases h
    · next nodes hres =>
      obtain ⟨hcont1, _⟩ := foldlM_process_content hfold
        (fun n hn => (List.not_mem_nil n hn).elim) (fun _ => rfl)
      injection h with h
      subst h
      obtain ⟨hfin1, _, _, hE0, hR0, hP0⟩ := foldlM_process_WF hk hallwf hfold
        (fun j => by rw [List.length_nil, Nat.zero_add])
        (Or.inl rfl)
        (fun n hn => (List.not_mem_nil n hn).elim)
        (fun i rr hi hilt => absurd hilt (by simp))
        (fun q hq => (List.not_mem_nil q hq).elim)
      have hg0k : g0.k = kOf recs := hfin1 hne
      have hcont2 : ∀ n ∈ g0.nodes, uValid n.kmer = true ∧
          n.kmer.length = kOf recs ∧ n.complement = rcT n.kmer := by
        intro n hn
        obtain ⟨c1, c2, c3⟩ := hcont1 n hn
        exact ⟨c1, by rw [← hg0k]; exact c2, c3⟩
      obtain ⟨hE2, _⟩ := foldlM_resolve_WF hk hallwf halllink hR0 hcont2
        hres hP0 hE0 (fun j => rfl)
      constructor
      · show edgesOK g0.k nodes
        rw [hg0k]
        exact hE2
      · show g0.k = kOf recs
        exact hg0k

theorem add_of_overlap {a b : Dna} (h0 : min a.length b.length ≠ 0)
    (hov : a.drop (a.length - (min a.length b.length - 1)) =
      b.take (min a.length b.length - 1)) :
    Unitig.add a b = some (a ++ b.drop (min a.length b.length - 1)) := by
  simp only [Unitig.add]
  rw [if_neg h0, if_pos hov]

theorem findExt_ne_none {nodes : List Node} {m : Dna} {d : Bool} {s : Nat} :
    ∀ {edges : List Edge},
    (∀ e ∈ edges, ∃ t, nodes[e.«to»]? = some t) →
    findExt nodes m d s edges ≠ none := by
  intro edges
  induction edges with
  | nil =>
    intro _
    simp [findExt]
  | cons e rest ih =>
    intro htgt
    have hrest := ih (fun e2 he2 => htgt e2 (List.mem_cons_of_mem e he2))
    simp only [findExt]
    split
    · exact hrest
    · split
      · next heq =>
        obtain ⟨t, ht⟩ := htgt e (List.mem_cons_self e rest)
        rw [ht] at heq
        cases heq
      · split
        · exact hrest
        · split
          · simp
          · exact hrest

theorem closure_no_panic (g : Graph) (hk : 1 ≤ g.k)
    (hN : ∀ n ∈ g.nodes, uValid n.kmer = true ∧ n.kmer.length = g.k ∧
      n.complement = rcT n.kmer)
    (hEg : edgesOK g.k g.nodes) :
    ∀ fuel m first last st,
    SuppInv (seedSupp g.nodes) g.k st.supp →
    uValid m = true → g.k ≤ m.length →
    (∀ w ∈ windows m g.k, (lookupU (seedSupp g.nodes) w).isSome = true) →
    first.1 ∈ g.nodes → last.1 ∈ g.nodes →
    strand first.1 first.2 = m.take g.k →
    strand last.1 last.2 = m.drop (m.length - g.k) →
    Graph.closure g g.k fuel m first last st ≠ PRes.panic := by
  intro fuel
  induction fuel with
  | zero =>
    intro m first last st _ _ _ _ _ _ _ _
    simp [Graph.closure]
  | succ fuel ih =>
    intro m first last st hInv hval hlen hwins hfm hlm hpre hsuf hok
    obtain ⟨T2, hsupp, hInv2, hlook2, hpres2⟩ :=
      supp_step hk hInv hval hlen hwins
    simp only [Graph.closure] at hok
    split at hok
    · next heq =>
      rw [hsupp] at heq
      cases heq
    · next s T heq =>
      rw [hsupp] at heq
      injection heq with heq
      injection heq with h1 h2
      subst h1
      subst h2
      split at hok
      · next hfind =>
        refine findExt_ne_none ?_ hfind
        intro e he
        obtain ⟨t, ht, _⟩ := (hEg last.1 hlm).1 e he
        exact ⟨t, ht⟩
      · -- right extension succeeded
        next node kmer c e hfind =>
        obtain ⟨⟨ed, hed, hst, hend, hn⟩, hkmer, hc, hsc⟩ := findExt_some hfind
        have hnode : node ∈ g.nodes := List.getElem?_mem hn
        obtain ⟨hkval0, hklen0, hcomp0⟩ := hN node hnode
        have hkmerlen : kmer.length = g.k := by
          rw [hkmer]
          cases e
          · unfold strand
            rw [if_neg (by simp), hcomp0, rcT_length, hklen0]
          · unfold strand
            rw [if_pos rfl, hklen0]
        have hkmerval : uValid kmer = true := by
          rw [hkmer]
          cases e
          · unfold strand
            rw [if_neg (by simp), hcomp0]
            exact uValid_rcT hkval0
          · unfold strand
            rw [if_pos rfl]
            exact hkval0
        have hkpres : (lookupU (seedSupp g.nodes) kmer).isSome = true := by
          rw [hkmer]
          cases e
          · unfold strand
            rw [if_neg (by simp), hcomp0,
              lookupU_congr (keyEq_rcT node.kmer)]
            exact seedSupp_present hnode
          · unfold strand
            rw [if_pos rfl]
            exact seedSupp_present hnode
        have hov : m.drop (m.length - (g.k - 1)) = kmer.take (g.k - 1) := by
          obtain ⟨t2, ht2, hove⟩ := (hEg last.1 hlm).1 ed hed
          rw [hn] at ht2
          injection ht2 with ht2
          subst ht2
          rw [hst, hend, hsuf, ← hkmer, List.drop_drop] at hove
          rw [show m.length - (g.k - 1) = m.length - g.k + 1 by omega]
          exact hove
        have hmin : min m.length kmer.length = g.k := by
          rw [hkmerlen]
          exact min_eq_right hlen
        split at hok
        · next hadd =>
          rw [add_of_overlap (by rw [hmin]; omega)
            (by rw [hmin]; exact hov)] at hadd
          cases hadd
        · next m2 hadd =>
          obtain ⟨h0, hov2, hm2⟩ := add_some hadd
          rw [hmin] at hov2 hm2
          have hval2 : uValid m2 = true := by
            rw [hm2]
            exact uValid_append hval (uValid_drop hkmerval _)
          have hlen2 : g.k ≤ m2.length := by
            rw [hm2, List.length_append]
            omega
          have hwin2 : windows m2 g.k = windows m g.k ++ [kmer] := by
            rw [hm2]
            exact windows_append_right hk hlen hkmerlen hov2
          have hwins2 : ∀ w ∈ windows m2 g.k,
              (lookupU (seedSupp g.nodes) w).isSome = true := by
            rw [hwin2]
            intro w hw
            rcases List.mem_append.1 hw with hw | hw
            · exact hwins w hw
            · simp only [List.mem_singleton] at hw
              subst hw
              exact hkpres
          have hpre2 : strand first.1 first.2 = m2.take g.k := by
            rw [hm2, List.take_append_of_le_length hlen]
            exact hpre
          have hsuf2 : strand node e = m2.drop (m2.length - g.k) := by
            rw [← hkmer, hm2, List.length_append, List.length_drop, hkmerlen,
              show m.length + (g.k - (g.k - 1)) - g.k =
                m.length - (g.k - 1) by omega,
              List.drop_append_of_le_length (by omega), hov2,
              List.take_append_drop]
          by_cases hcs : c = minWinVals (seedSupp g.nodes) g.k m
          · rw [if_pos hcs] at hok
            exact ih m2 first (node, e) _ hInv2 hval2 hlen2 hwins2 hfm
              hnode hpre2 hsuf2 hok
          · rw [if_neg hcs] at hok
            exact ih m2 first (node, e) _ hInv2 hval2 hlen2 hwins2 hfm
              hnode hpre2 hsuf2 hok
      · -- no right extension: left side
        split at hok
        · next hfind =>
          refine findExt_ne_none ?_ hfind
          intro e he
          obtain ⟨t, ht, _⟩ := (hEg first.1 hfm).2 e he
          exact ⟨t, ht⟩
        · next node kmer c e hfind =>
          obtain ⟨⟨ed, hed, hst, hend, hn⟩, hkmer, hc, hsc⟩ :=
            findExt_some hfind
          have hnode : node ∈ g.nodes := List.getElem?_mem hn
          obtain ⟨hkval0, hklen0, hcomp0⟩ := hN node hnode
          have hkmerlen : kmer.length = g.k := by
            rw [hkmer]
            cases e
            · unfold strand
              rw [if_neg (by simp), hcomp0, rcT_length, hklen0]
            · unfold strand
              rw [if_pos rfl, hklen0]
          have hkmerval : uValid kmer = true := by
            rw [hkmer]
            cases e
            · unfold strand
              rw [if_neg (by simp), hcomp0]
              exact uValid_rcT hkval0
            · unfold strand
              rw [if_pos rfl]
              exact hkval0
          have hkpres : (lookupU (seedSupp g.nodes) kmer).isSome = true := by
            rw [hkmer]
            cases e
            · unfold strand
              rw [if_neg (by simp), hcomp0,
                lookupU_congr (keyEq_rcT node.kmer)]
              exact seedSupp_present hnode
            · unfold strand
              rw [if_pos rfl]
              exact seedSupp_present hnode
          have hov : kmer.drop 1 = m.take (g.k - 1) := by
            obtain ⟨t2, ht2, hove⟩ := (hEg first.1 hfm).2 ed hed
            rw [hn] at ht2
            injection ht2 with ht2
            subst ht2
            rw [hst, hend, hpre, ← hkmer, List.take_take,
              show min (g.k - 1) g.k = g.k - 1 by omega] at hove
            exact hove
          have hmin : min kmer.length m.length = g.k := by
            rw [hkmerlen]
            exact min_eq_left hlen
          split at hok
          · next hadd =>
            rw [add_of_overlap (by rw [hmin]; omega)
              (by rw [hmin, hkmerlen,
                show g.k - (g.k - 1) = 1 by omega]; exact hov)] at hadd
            cases hadd
          · next m2 hadd =>
            obtain ⟨h0, hov2, hm2⟩ := add_some hadd
            rw [hmin] at hov2 hm2
            rw [hkmerlen, show g.k - (g.k - 1) = 1 by omega] at hov2
            have hval2 : uValid m2 = true := by
              rw [hm2]
              exact uValid_append hkmerval (uValid_drop hval _)
            have hlen2 : g.k ≤ m2.length := by
              rw [hm2, List.length_append, hkmerlen]
              omega
            have hwin2 : windows m2 g.k = kmer :: windows m g.k := by
              rw [hm2]
              exact windows_cons_left hk hlen hkmerlen hov2
            have hwins2 : ∀ w ∈ windows m2 g.k,
                (lookupU (seedSupp g.nodes) w).isSome = true := by
              rw [hwin2]
              intro w hw
              rcases List.mem_cons.1 hw with hw | hw
              · subst hw
                exact hkpres
              · exact hwins w hw
            have hpre2 : strand node e = m2.take g.k := by
              rw [← hkmer, hm2,
                List.take_append_of_le_length (le_of_eq hkmerlen.symm),
                List.take_of_length_le (le_of_eq hkmerlen)]
            have hm2' : m2 = kmer.take 1 ++ m := by
              rw [hm2]
              conv_lhs => rw [← List.take_append_drop 1 kmer]
              rw [List.append_assoc, hov2, List.take_append_drop]
            have hsuf2 : strand last.1 last.2 = m2.drop (m2.length - g.k) := by
              rw [hsuf, hm2',
                show (kmer.take 1 ++ m).length - g.k =
                  (kmer.take 1).length + (m.length - g.k) by
                    rw [List.length_append, List.length_take, hkmerlen]
                    omega,
                List.drop_append]
            by_cases hcs : c = minWinVals (seedSupp g.nodes) g.k m
            · rw [if_pos hcs] at hok
              exact ih m2 (node, e) last _ hInv2 hval2 hlen2 hwins2 hnode
                hlm hpre2 hsuf2 hok
            · rw [if_neg hcs] at hok
              exact ih m2 (node, e) last _ hInv2 hval2 hlen2 hwins2 hnode
                hlm hpre2 hsuf2 hok
        · -- both sides exhausted: ok result, not a panic
          cases hok

theorem closeLoop_no_panic (g : Graph) (hk : 1 ≤ g.k)
    (hN : ∀ n ∈ g.nodes, uValid n.kmer = true ∧ n.kmer.length = g.k ∧
      n.complement = rcT n.kmer)
    (hEg : edgesOK g.k g.nodes) :
    ∀ rest fuel st,
    (∀ n ∈ rest, n ∈ g.nodes) →
    SuppInv (seedSupp g.nodes) g.k st.supp →
    (∀ n ∈ g.nodes, (lookupU st.is_closed n.kmer).isSome = true) →
    closeLoop g g.k fuel rest st ≠ PRes.panic := by
  intro rest
  induction rest with
  | nil =>
    intro fuel st _ _ _
    simp [closeLoop]
  | cons node rest ih =>
    intro fuel st hsub hInv hclosed hok
    have hnode : node ∈ g.nodes := hsub node (List.mem_cons_self node rest)
    obtain ⟨hkval, hklen, _⟩ := hN node hnode
    simp only [closeLoop] at hok
    split at hok
    · next hnone =>
      have hpres := hclosed node hnode
      rw [hnone] at hpres
      cases hpres
    · exact ih fuel st (fun n hn => hsub n (List.mem_cons_of_mem node hn))
        hInv hclosed hok
    · -- some false: run the closure
      have hwins0 : ∀ w ∈ windows node.kmer g.k,
          (lookupU (seedSupp g.nodes) w).isSome = true := by
        rw [windows_self hklen]
        intro w hw
        simp only [List.mem_singleton] at hw
        subst hw
        exact seedSupp_present hnode
      have hpre0 : strand node true = node.kmer.take g.k := by
        rw [List.take_of_length_le (le_of_eq hklen)]
        rfl
      have hsuf0 : strand node true =
          node.kmer.drop (node.kmer.length - g.k) := by
        rw [hklen, Nat.sub_self, List.drop_zero]
        rfl
      split at hok
      · next hclo =>
        exact closure_no_panic g hk hN hEg fuel node.kmer (node, true)
          (node, true) st hInv hkval (le_of_eq hklen.symm) hwins0 hnode
          hnode hpre0 hsuf0 hclo
      · cases hok
      · next mclo st2 hclo =>
        obtain ⟨D1, D2, D3, D4, D5, D6⟩ := closure_spec g hk hN fuel
          node.kmer (node, true) (node, true) st mclo st2 hInv hkval
          (le_of_eq hklen.symm) hwins0 hclo
        split at hok
        · next hshr =>
          obtain ⟨u2, hcalc, _⟩ := shrink_spec hk D1
            (suppInv_seed (fun n hn => ⟨(hN n hn).1, (hN n hn).2.1⟩))
            D2 D3 D4 D5
          rw [hcalc] at hshr
          cases hshr
        · next u c hshr =>
          split at hok
          · cases hok
          · next r hne =>
            exact ih fuel st2
              (fun n hn => hsub n (List.mem_cons_of_mem node hn)) D1
              (fun n hn => D6 n.kmer (hclosed n hn)) hok

/-- C5: concatenation-overlap assertion safety.  For every graph built by
From from well-formed records, a run of Graph::close never panics, for any
loop fuel: every concatenation performed during Graph::closure joins the
current unitig with the k-mer of an adjacent edge, and the edges written
by the construction always carry the k-1 overlap the Unitig addition
asserts, so the assertion never fires (and no other panic source of the
closure loop is reachable either). -/
theorem C5_overlap_safety {recs : List Record} {g : Graph}
    (hwf : WFRecs recs = true)
    (hbg : Graph.fromRecords recs = some g) :
    ∀ fuel, g.closePairs fuel ≠ PRes.panic := by
  intro fuel hok
  obtain ⟨hN, hkrec⟩ := fromRecords_content hbg
  have hne : recs ≠ [] := by
    simp only [WFRecs, Bool.and_eq_true, decide_eq_true_eq] at hwf
    exact hwf.1.1.1
  have hk : 1 ≤ g.k := hkrec hne
  obtain ⟨hWE, _⟩ := fromRecords_WF hwf hbg
  simp only [Graph.closePairs, Graph.closeTrace] at hok
  cases hcl : closeLoop g g.k fuel g.nodes
      { supp := seedSupp g.nodes, is_closed := seedClosed g.nodes,
        n_closed := 0 } <;> rw [hcl] at hok
  · exact closeLoop_no_panic g hk hN hWE g.nodes fuel _ (fun n hn => hn)
      (suppInv_seed (fun n hn => ⟨(hN n hn).1, (hN n hn).2.1⟩))
      (fun n hn => seedClosed_present hn) hcl
  · simp only [PRes.map] at hok
    cases hok
  · simp only [PRes.map] at hok
    cases hok

/-- C5 witness: the scenario C input is well formed, builds gC, and its
close run does not panic. -/
theorem C5_overlap_safety_witness :
    WFRecs [recC] = true ∧ Graph.fromRecords [recC] = some gC ∧
    gC.closePairs 10 ≠ PRes.panic :=
  ⟨by decide, by decide,
    @C5_overlap_safety [recC] gC (by decide) (by decide) 10⟩
